import Mathlib

/-!
Verification of the just-release release pipeline.

This file shallowly embeds the core of the just-release tool: commit
classification, version-bump calculation, release-boundary detection,
git-based version resolution, topological crate ordering, PR-summary
rendering, the publish orchestrator, manifest version rewriting and
changelog generation.  Pure functions are translated directly from the
TypeScript source; stateful operations (file reads and writes) are
modelled by explicit state passing over an association-list filesystem.
JavaScript Map and Set values are modelled by insertion-ordered
association lists, matching the iteration-order semantics of the
originals.  External collaborators (git, the conventional-commits
parser) are modelled by small executable functions whose behaviour is
documented at each definition.
-/

namespace JustRelease

/-- Association-list lookup, modelling JS Map.get: first matching key. -/
def getA {α : Type} : List (String × α) → String → Option α
  | [], _ => none
  | (k1, v) :: rest, k => if k1 = k then some v else getA rest k

/-- Association-list update, modelling JS Map.set: replace the value at an
existing key in place (preserving its position), else append. -/
def setA {α : Type} : List (String × α) → String → α → List (String × α)
  | [], k, v => [(k, v)]
  | (k1, v1) :: rest, k, v =>
    if k1 = k then (k, v) :: rest else (k1, v1) :: setA rest k v

/-- First-occurrence deduplication, modelling JS Set insertion order. -/
def dedupKeep (seen : List String) : List String → List String
  | [] => []
  | x :: r => if seen.contains x then dedupKeep seen r else x :: dedupKeep (x :: seen) r

/-- Decimal digits of a natural number, most significant first
(structural accumulator form with a fuel counter that dominates the
digit count), modelling JS number-to-string conversion. -/
def natToDecAux : Nat → Nat → List Char → List Char
  | 0, _, acc => acc
  | fuel + 1, n, acc =>
    let d := Char.ofNat (48 + n % 10)
    if n < 10 then d :: acc
    else natToDecAux fuel (n / 10) (d :: acc)

/-- Decimal rendering of a natural number; a number n has at most n + 1
decimal digits, so the fuel never runs out. -/
def natToDec (n : Nat) : String := String.mk (natToDecAux (n + 1) n [])

/-- Substring test on character lists (the worker for JS String.includes). -/
def containsSubL (pat : List Char) : List Char → Bool
  | [] => pat.isEmpty
  | c :: rest => pat.isPrefixOf (c :: rest) || containsSubL pat rest

/-- JS String.includes. -/
def containsSub (s pat : String) : Bool := containsSubL pat.data s.data

/-- JS String.startsWith. -/
def startsWithS (s pre : String) : Bool := pre.data.isPrefixOf s.data

/-- Split a character list on a separator character; like JS
String.split, empty segments are kept. -/
def splitOnCL (sep : Char) : List Char → List (List Char)
  | [] => [[]]
  | c :: rest =>
    let r := splitOnCL sep rest
    if c = sep then [] :: r
    else
      match r with
      | [] => [[c]]
      | seg :: segs => (c :: seg) :: segs

/-- JS String.split for a one-character separator. -/
def splitOnC (sep : Char) (s : String) : List String :=
  (splitOnCL sep s.data).map String.mk

/-- Join strings with a separator, modelling JS Array.join. -/
def joinSep (sep : String) : List String → String
  | [] => ""
  | [x] => x
  | x :: y :: rest => x ++ sep ++ joinSep sep (y :: rest)

/-- Remove the first occurrence of a pattern from a character list
(the worker for JS String.replace with an empty replacement). -/
def removeFirstL (pat : List Char) : List Char → List Char
  | [] => []
  | c :: rest =>
    if pat.isPrefixOf (c :: rest) then (c :: rest).drop pat.length
    else c :: removeFirstL pat rest

/-- JS String.replace(pat, empty string): drop the first occurrence of
`pat` when present, else return the string unchanged. -/
def removeFirst (s pat : String) : String := String.mk (removeFirstL pat.data s.data)

/-- First-index search, modelling Array.findIndex. -/
def findIdxA {α : Type} (p : α → Bool) : List α → Option Nat
  | [] => none
  | a :: l => if p a then some 0 else (findIdxA p l).map (· + 1)

/-- First-hit search, returning the value produced at the first element
accepted by the partial function. -/
def findSomeA {α β : Type} (f : α → Option β) : List α → Option β
  | [] => none
  | a :: l =>
    match f a with
    | some b => some b
    | none => findSomeA f l

/-! ## Data model

`WPkg` mirrors the WorkspacePackage interface (name, version, path,
ecosystem tag); `RawCommit` models one entry of a simple-git log:
`message` is the subject line, `body` the remaining message text (empty
string when absent, as simple-git reports it), `files` the changed
paths returned by git show.  `CommitInfo` mirrors the CommitInfo
interface produced by the analyzer (plus `rawMessage`, the subject-line
fallback used by the formatting and changelog code). -/

structure WPkg where
  name : String
  version : String
  path : String
  ecosystem : String
deriving DecidableEq, Repr

structure RawCommit where
  hash : String
  message : String
  body : String
  files : List String
deriving DecidableEq, Repr

structure CommitInfo where
  hash : String
  type : Option String
  scope : Option String
  subject : Option String
  body : Option String
  breaking : Bool
  packages : List String
  files : List String
  rawMessage : String
deriving DecidableEq, Repr

/-! ## Conventional-commit header parsing

Models the default header grammar of conventional-commits-parser as
used by the analyzer: a run of word characters (the type), an optional
parenthesised scope (greedy, so the scope extends to the last closing
parenthesis that lets the rest of the header match), an optional bang,
then a colon and a space, then the subject. -/

def isWordChar (c : Char) : Bool := c.isAlpha || c.isDigit || c = '_'

structure Header where
  htype : String
  scope : Option String
  bang : Bool
  subject : String
deriving DecidableEq, Repr

/-- Parse the part of a header after the optional scope group: an
optional bang, then a colon and a space, then the subject. -/
def parseTail : List Char → Option (Bool × String)
  | '!' :: ':' :: ' ' :: rest => some (true, String.mk rest)
  | ':' :: ' ' :: rest => some (false, String.mk rest)
  | _ => none

/-- All decompositions `l = pre ++ close :: post` at a closing
parenthesis, rightmost first (regex greedy order for the scope group). -/
def parenSplits : List Char → List (List Char × List Char)
  | [] => []
  | c :: rest =>
    (parenSplits rest).map (fun p => (c :: p.1, p.2)) ++
      (if c = ')' then [([], rest)] else [])

/-- Try the scope decompositions in greedy order, returning the first
whose remainder parses as a header tail. -/
def firstScopeParse : List (List Char × List Char) → Option (String × Bool × String)
  | [] => none
  | (sc, post) :: more =>
    match parseTail post with
    | some (b, subj) => some (String.mk sc, b, subj)
    | none => firstScopeParse more

/-- Parse a conventional-commit header line; none when the line does not
match the grammar (the commit is still retained by the analyzer, with
null type and subject). -/
def parseHeader (line : String) : Option Header :=
  let l := line.data
  let ty := l.takeWhile isWordChar
  let rest0 := l.dropWhile isWordChar
  match rest0 with
  | '(' :: inner =>
    match firstScopeParse (parenSplits inner) with
    | some (sc, b, subj) => some ⟨String.mk ty, some sc, b, subj⟩
    | none => none
  | _ =>
    match parseTail rest0 with
    | some (b, subj) => some ⟨String.mk ty, none, b, subj⟩
    | none => none

/-- Full message reconstruction as the analyzer does before parsing:
subject, blank line, body (just the subject when the body is empty). -/
def fullMessage (c : RawCommit) : String :=
  if c.body = "" then c.message else c.message ++ "\n\n" ++ c.body

/-- Model of the breaking-change footer notes produced by
conventional-commits-parser: a note exists iff some line of the full
message starts with the BREAKING CHANGE keyword and colon. -/
def hasBreakingNote (full : String) : Bool :=
  (splitOnC '\n' full).any (fun ln => startsWithS ln "BREAKING CHANGE: ")

/-- The breaking flag exactly as the analyzer computes it: a breaking
note is present, or the subject line contains the two-character
substring bang-colon anywhere. -/
def analyzedBreaking (c : RawCommit) : Bool :=
  hasBreakingNote (fullMessage c) || containsSub c.message "!:"

/-! ## Commit analysis (src/commits.ts)

`analyzeCommits` models the analyzer: it slices the reverse-chronological
git log at the most recent commit whose subject starts with the literal
text `release: ` (progressively widening the searched depth from 100 to
1000 to the whole history), classifies each remaining commit, attributes
its changed files to workspace packages, and returns the classified
commits oldest first.  The git log is modelled as the full
reverse-chronological history list; a log call with a depth limit
returns a prefix of it, and the simple-git log total is the number of
entries that call returned (the length of that prefix, never more than
the depth limit), so the widening conditions that compare the total
against the depth limit just used can never hold and only the newest
100 commits are ever examined. -/

/-- One entry of the affected-package set: JS Set.add keeps insertion
order and ignores duplicates. -/
def addUnique (l : List String) (x : String) : List String :=
  if l.contains x then l else l ++ [x]

/-- File-to-package attribution for one commit, as the analyzer does it:
for each changed file and each package, compute the package path
relative to the repository root by removing the first occurrence of
root-slash; when that removal changes nothing the package is the
repository root and every file is attributed to it, otherwise the file
is attributed when its path starts with the relative package path. -/
def attributePackages (repoPath : String) (pkgs : List WPkg) (files : List String) : List String :=
  files.foldl
    (fun acc file =>
      pkgs.foldl
        (fun acc2 pkg =>
          let relativePkgPath := removeFirst pkg.path (repoPath ++ "/")
          if relativePkgPath = pkg.path then addUnique acc2 pkg.name
          else if startsWithS file relativePkgPath then addUnique acc2 pkg.name
          else acc2)
        acc)
    []

/-- Classification of one raw commit into a CommitInfo, modelling the
analyzer loop body: parse the header of the subject line with the
conventional grammar, compute the breaking flag, attribute files. -/
def classifyRaw (repoPath : String) (pkgs : List WPkg) (c : RawCommit) : CommitInfo :=
  let hdr := parseHeader c.message
  { hash := c.hash
    type := hdr.map (·.htype)
    scope := hdr.bind (·.scope)
    subject := hdr.map (·.subject)
    body := if c.body = "" then none else some c.body
    breaking := analyzedBreaking c
    packages := attributePackages repoPath pkgs c.files
    files := c.files
    rawMessage := c.message }

/-- The release-boundary test the analyzer uses: the subject starts with
the literal text `release: `. -/
def isReleasePrefixed (c : RawCommit) : Bool := startsWithS c.message "release: "

/-- Index of the first release-prefixed commit in a log slice. -/
def releaseIdx (l : List RawCommit) : Option Nat := findIdxA isReleasePrefixed l

/-- The staged slice of the history the analyzer retains: search the
newest 100 commits for a release boundary and keep everything before
it, or the whole fetched log when no boundary exists.  The widening
steps of the source compare the simple-git log total — the number of
entries the call returned, at most the requested depth — against that
same depth, so the 1000-deep and full-history fetches are unreachable
and are translated as the dead branches they are. -/
def stagedSlice (history : List RawCommit) : List RawCommit :=
  let log100 := history.take 100
  match releaseIdx log100 with
  | some i => log100.take i
  | none =>
    if log100.length > 100 then
      let log1000 := history.take 1000
      match releaseIdx log1000 with
      | some i => log1000.take i
      | none =>
        if log1000.length > 1000 then
          match releaseIdx history with
          | some i => history.take i
          | none => history
        else log1000
    else log100

/-- The analyzer: classify every commit strictly newer than the release
boundary and return them oldest first. -/
def analyzeCommits (repoPath : String) (pkgs : List WPkg) (history : List RawCommit) :
    List CommitInfo :=
  ((stagedSlice history).map (classifyRaw repoPath pkgs)).reverse

/-! ## Version bump calculation (src/version.ts) -/

inductive BumpType where
  | major
  | minor
  | patch
deriving DecidableEq, Repr

structure VersionBumpResult where
  bumpType : Option BumpType
  newVersion : Option String
deriving DecidableEq, Repr

/-- A parsed semantic version: numeric core plus prerelease identifiers
(empty when the version is a plain release). -/
structure Semver where
  major : Nat
  minor : Nat
  patch : Nat
  pre : List String
deriving DecidableEq, Repr

def isDigitChar (c : Char) : Bool := '0' ≤ c ∧ c ≤ '9'

/-- Parse a digit run into a number; none when empty, not all digits, or
carrying a superfluous leading zero. -/
def parseNatL (l : List Char) : Option Nat :=
  if l = [] then none
  else if !(l.all isDigitChar) then none
  else if l.length > 1 ∧ l.headI = '0' then none
  else some (l.foldl (fun acc c => acc * 10 + (c.toNat - 48)) 0)

/-- A legal prerelease identifier: nonempty alphanumerics and hyphens,
numeric identifiers without leading zeros. -/
def validPreId (l : List Char) : Bool :=
  l ≠ [] && l.all (fun c => c.isAlpha || isDigitChar c || c = '-') &&
    !(l.all isDigitChar && l.length > 1 && l.headI = '0')

/-- Parse a semver string MAJOR.MINOR.PATCH with an optional
hyphen-separated prerelease part, as the semver library accepts for the
inputs this pipeline produces. -/
def parseSemver (v : String) : Option Semver :=
  let l := v.data
  let core := l.takeWhile (fun c => c ≠ '-')
  let rest := l.dropWhile (fun c => c ≠ '-')
  match splitOnCL '.' core with
  | [ma, mi, pa] =>
    match parseNatL ma, parseNatL mi, parseNatL pa with
    | some a, some b, some c =>
      match rest with
      | [] => some ⟨a, b, c, []⟩
      | _ :: preChars =>
        let ids := splitOnCL '.' preChars
        if ids.all validPreId then some ⟨a, b, c, ids.map String.mk⟩ else none
    | _, _, _ => none
  | _ => none

/-- The increment rules of semver.inc for major, minor and patch: a
prerelease of the next release collapses to that release instead of
moving past it, and the prerelease part is always cleared. -/
def incSemver (s : Semver) : BumpType → Semver
  | .major =>
    if s.minor = 0 ∧ s.patch = 0 ∧ s.pre ≠ [] then ⟨s.major, 0, 0, []⟩
    else ⟨s.major + 1, 0, 0, []⟩
  | .minor =>
    if s.patch = 0 ∧ s.pre ≠ [] then ⟨s.major, s.minor, 0, []⟩
    else ⟨s.major, s.minor + 1, 0, []⟩
  | .patch =>
    if s.pre ≠ [] then ⟨s.major, s.minor, s.patch, []⟩
    else ⟨s.major, s.minor, s.patch + 1, []⟩

/-- Render a released version (prerelease cleared by the increment). -/
def renderSemver (s : Semver) : String :=
  natToDec s.major ++ "." ++ natToDec s.minor ++ "." ++ natToDec s.patch

/-- semver.inc: none when the current version does not parse. -/
def semverInc (v : String) (b : BumpType) : Option String :=
  (parseSemver v).map (fun s => renderSemver (incSemver s b))

/-- The version-bump calculator, translated from calculateVersionBump:
empty input yields no bump; otherwise any breaking commit yields major,
else any feat commit yields minor, else any fix or perf commit yields
patch, else no bump; the new version is semver.inc of the current
version at the chosen bump. -/
def calculateVersionBump (currentVersion : String) (commits : List CommitInfo) :
    VersionBumpResult :=
  if commits.length = 0 then ⟨none, none⟩
  else
    let bumpType : Option BumpType :=
      if commits.any (·.breaking) then some .major
      else if commits.any (fun c => c.type = some "feat") then some .minor
      else if commits.any (fun c => c.type = some "fix" || c.type = some "perf") then
        some .patch
      else none
    match bumpType with
    | none => ⟨none, none⟩
    | some b => ⟨some b, semverInc currentVersion b⟩

/-! ## Release-commit detection (src/release-commit.ts)

The release-commit pattern is the case-insensitive regex
word-boundary release word-boundary, then up to three characters from
whitespace, colon or closing parenthesis, then an optional v, then
three dot-separated digit runs with an optional hyphenated prerelease
suffix.  The model scans every starting position like the regex engine
does; the bounded repetition becomes an explicit disjunction over the
four possible counts. -/

/-- Characters accepted between the release word and the version:
whitespace, colon or closing parenthesis. -/
def isSpaceColonParen (c : Char) : Bool := c = ':' || c = ')' || c.isWhitespace

/-- Prerelease-suffix characters of the release pattern. -/
def isPreSuffixChar (c : Char) : Bool := c.isAlpha || isDigitChar c || c = '.'

/-- Match an optional v then DIGITS.DIGITS.DIGITS at the head of the
list, returning the captured version text (digits onward, including an
optional hyphenated prerelease suffix), as the version-extraction
pattern captures it. -/
def vnumAt (l : List Char) : Option String :=
  let l0 := match l with
    | 'v' :: r => r
    | r => r
  let d1 := l0.takeWhile isDigitChar
  match d1 with
  | [] => none
  | _ =>
    match l0.drop d1.length with
    | '.' :: l1 =>
      let d2 := l1.takeWhile isDigitChar
      match d2 with
      | [] => none
      | _ =>
        match l1.drop d2.length with
        | '.' :: l2 =>
          let d3 := l2.takeWhile isDigitChar
          match d3 with
          | [] => none
          | _ =>
            let rest := l2.drop d3.length
            let core := d1 ++ '.' :: d2 ++ '.' :: d3
            match rest with
            | '-' :: r =>
              let suf := r.takeWhile isPreSuffixChar
              if suf = [] then some (String.mk core)
              else some (String.mk (core ++ '-' :: suf))
            | _ => some (String.mk core)
        | _ => none
    | _ => none

/-- Match exactly k separator-class characters then the version head. -/
def tryK : Nat → List Char → Bool
  | 0, l => (vnumAt l).isSome
  | _ + 1, [] => false
  | k + 1, c :: r => isSpaceColonParen c && tryK k r

/-- The bounded repetition of zero to three separator characters. -/
def anyK (l : List Char) : Bool := tryK 0 l || tryK 1 l || tryK 2 l || tryK 3 l

/-- Case-insensitive character comparison against a lowercase letter. -/
def lowerEq (c d : Char) : Bool := c.toLower = d

/-- Match the release word at the head of the list, with a trailing word
boundary, followed by the separator run and version. -/
def releaseWordAt : List Char → Bool
  | r :: e :: l :: e2 :: a :: s :: e3 :: rest =>
    lowerEq r 'r' && lowerEq e 'e' && lowerEq l 'l' && lowerEq e2 'e' &&
      lowerEq a 'a' && lowerEq s 's' && lowerEq e3 'e' &&
      (match rest with
        | [] => true
        | c :: _ => !isWordChar c) &&
      anyK rest
  | _ => false

/-- Scan every starting position, tracking the previous character for
the leading word boundary. -/
def scanRelease (prev : Option Char) : List Char → Bool
  | [] => false
  | c :: rest =>
    ((match prev with
      | none => true
      | some p => !isWordChar p) &&
      releaseWordAt (c :: rest)) ||
    scanRelease (some c) rest

/-- isReleaseCommit: the message matches the release pattern. -/
def isReleaseCommit (message : String) : Bool := scanRelease none message.data

/-- Leftmost match of the version pattern anywhere in the text. -/
def firstVNumScan : List Char → Option String
  | [] => none
  | c :: rest =>
    match vnumAt (c :: rest) with
    | some s => some s
    | none => firstVNumScan rest

/-- extractVersionFromCommit: none for non-release messages, else the
leftmost embedded version string. -/
def extractVersionFromCommit (message : String) : Option String :=
  if isReleaseCommit message then firstVNumScan message.data else none

/-! ## Git-based version resolution (src/version-source.ts) -/

/-- The version a commit contributes to strategy 1: for a release
commit, the extracted version when it is a nonempty string (JS
truthiness guards the return). -/
def releaseVersionOf (c : RawCommit) : Option String :=
  if isReleaseCommit c.message then
    match extractVersionFromCommit c.message with
    | some v => if v = "" then none else some v
    | none => none
  else none

/-- Strategy 1 of resolveCurrentVersion: search the newest 100 commits
of the reverse-chronological history for a release commit with an
extractable version.  A git log call with a depth limit is modelled as
a history prefix, and the simple-git log total is the number of entries
that call returned — at most the depth just requested — so the
deepening conditions comparing the total against that depth never hold
and the 1000-deep and full-history scans are dead branches. -/
def stage1Search (history : List RawCommit) : Option String :=
  match findSomeA releaseVersionOf (history.take 100) with
  | some v => some v
  | none =>
    if (history.take 100).length > 100 then
      match findSomeA releaseVersionOf ((history.take 1000).drop 100) with
      | some v => some v
      | none =>
        if (history.take 1000).length > 1000 then
          findSomeA releaseVersionOf (history.drop 1000)
        else none
    else none

/-- The anchored strict tag pattern: optional v, three digit runs, an
optional hyphenated prerelease suffix, end of string; returns the
version without the v prefix. -/
def strictTagVersion (t : String) : Option String :=
  let l0 := match t.data with
    | 'v' :: r => r
    | r => r
  let d1 := l0.takeWhile isDigitChar
  match d1 with
  | [] => none
  | _ =>
    match l0.drop d1.length with
    | '.' :: l1 =>
      let d2 := l1.takeWhile isDigitChar
      match d2 with
      | [] => none
      | _ =>
        match l1.drop d2.length with
        | '.' :: l2 =>
          let d3 := l2.takeWhile isDigitChar
          match d3 with
          | [] => none
          | _ =>
            match l2.drop d3.length with
            | [] => some (String.mk (d1 ++ '.' :: d2 ++ '.' :: d3))
            | '-' :: r =>
              if r ≠ [] && r.all isPreSuffixChar then
                some (String.mk (d1 ++ '.' :: d2 ++ '.' :: d3 ++ '-' :: r))
              else none
            | _ => none
        | _ => none
    | _ => none

/-- resolveCurrentVersion: last release commit, else first strict
version tag of the externally version-sorted tag list, else 0.0.0. -/
def resolveCurrentVersion (history : List RawCommit) (tags : List String) : String :=
  match stage1Search history with
  | some v => v
  | none =>
    match findSomeA strictTagVersion tags with
    | some v => v
    | none => "0.0.0"

/-! ## Semantic-version precedence

States what semantically-greatest means, to compare the tag the
resolver picks with semver precedence; digit runs are compared by
numeric value (leading zeros tolerated for generality, since the
strict tag pattern accepts them). -/

/-- Numeric value of a digit run. -/
def digitsVal (l : List Char) : Nat := l.foldl (fun acc c => acc * 10 + (c.toNat - 48)) 0

/-- Loose semver parse for precedence comparison: three dot-separated
digit runs with an optional hyphenated dot-separated prerelease. -/
def parseVersionLoose (v : String) : Option Semver :=
  let l := v.data
  let core := l.takeWhile (fun c => c ≠ '-')
  let rest := l.dropWhile (fun c => c ≠ '-')
  match splitOnCL '.' core with
  | [ma, mi, pa] =>
    if ma ≠ [] && ma.all isDigitChar && mi ≠ [] && mi.all isDigitChar &&
        pa ≠ [] && pa.all isDigitChar then
      match rest with
      | [] => some ⟨digitsVal ma, digitsVal mi, digitsVal pa, []⟩
      | _ :: preChars => some ⟨digitsVal ma, digitsVal mi, digitsVal pa,
          (splitOnCL '.' preChars).map String.mk⟩
    else none
  | _ => none

/-- Is a prerelease identifier numeric. -/
def isNumericId (s : String) : Bool := s.data ≠ [] && s.data.all isDigitChar

/-- Semver precedence on prerelease identifiers: numeric identifiers
compare numerically and precede alphanumeric ones; alphanumeric ones
compare lexically. -/
def preIdLt (a b : String) : Bool :=
  if isNumericId a && isNumericId b then digitsVal a.data < digitsVal b.data
  else if isNumericId a && !isNumericId b then true
  else if !isNumericId a && isNumericId b then false
  else a < b

/-- Semver precedence on prerelease identifier lists: pairwise, a
shorter list preceding any extension of it. -/
def preListLt : List String → List String → Bool
  | [], [] => false
  | [], _ :: _ => true
  | _ :: _, [] => false
  | a :: as, b :: bs => if a = b then preListLt as bs else preIdLt a b

/-- Semver precedence: numeric core lexicographically, then a release
above any of its prereleases, then prerelease identifiers. -/
def semverLtB (x y : Semver) : Bool :=
  if x.major ≠ y.major then x.major < y.major
  else if x.minor ≠ y.minor then x.minor < y.minor
  else if x.patch ≠ y.patch then x.patch < y.patch
  else
    match x.pre, y.pre with
    | [], [] => false
    | _ :: _, [] => true
    | [], _ :: _ => false
    | _ :: _, _ :: _ => preListLt x.pre y.pre

/-- Non-strict semver precedence. -/
def semverLeB (x y : Semver) : Bool := semverLtB x y || x = y

/-- Non-strict precedence on version strings via the loose parse. -/
def versionStrLe (a b : String) : Bool :=
  match parseVersionLoose a, parseVersionLoose b with
  | some x, some y => semverLeB x y
  | _, _ => false

/-! ## Topological crate ordering (src/ecosystems/rust.ts)

`topologicalSortCrates` runs Kahn s algorithm over insertion-ordered
maps.  The while loop is modelled with an explicit step budget equal to
the loop measure (count of positive in-degrees plus queue length); a
theorem below (kahnLoopF fuel-irrelevance) shows each iteration
strictly decreases that measure, so the budget never expires before the
queue empties and the budgeted loop coincides with the unbounded JS
loop. -/

/-- Count of entries with a positive stored in-degree: together with the
queue length this is the strictly-decreasing measure of the Kahn loop. -/
def posCount (m : List (String × Int)) : Nat := m.countP (fun p => decide (0 < p.2))

/-- Decrement the in-degrees of one popped name s dependents, enqueueing
every name whose degree reaches exactly zero (degrees are integers, as
in JS, so a seed that was already zero can never be re-enqueued). -/
def processPending : List String → List (String × Int) → List String →
    List (String × Int) × List String
  | [], inDeg, queue => (inDeg, queue)
  | b :: rest, inDeg, queue =>
    match getA inDeg b with
    | none => processPending rest inDeg queue
    | some d =>
      let d1 := d - 1
      let inDeg1 := setA inDeg b d1
      if d1 = 0 then processPending rest inDeg1 (queue ++ [b])
      else processPending rest inDeg1 queue

/-- The Kahn while loop with a step budget: pop the queue head, append
it to the sorted output, decrement its dependents. -/
def kahnLoopF (dependents : List (String × List String)) :
    Nat → List (String × Int) → List String → List String → List String
  | 0, _, _, sorted => sorted
  | fuel + 1, inDeg, queue, sorted =>
    match queue with
    | [] => sorted
    | a :: q =>
      let s := processPending ((getA dependents a).getD []) inDeg q
      kahnLoopF dependents fuel s.1 s.2 (sorted ++ [a])

/-- The Kahn while loop, with the budget instantiated at the measure. -/
def kahnLoop (dependents : List (String × List String)) (inDeg : List (String × Int))
    (queue : List String) (sorted : List String) : List String :=
  kahnLoopF dependents (posCount inDeg + queue.length) inDeg queue sorted

/-- Build the in-degree and dependents maps from the dependency map:
entries for names outside the package set are skipped, dependency lists
are filtered to internal names, and each internal dependency records
its dependent. -/
def buildMaps (packageNames : List String) : List (String × List String) →
    List (String × Int) → List (String × List String) →
    List (String × Int) × List (String × List String)
  | [], inDeg, deps => (inDeg, deps)
  | (name, ds) :: rest, inDeg, deps =>
    if packageNames.contains name then
      let internal := ds.filter (fun d => packageNames.contains d)
      let inDeg1 := setA inDeg name (internal.length : Int)
      let deps1 := internal.foldl
        (fun m d => setA m d ((getA m d).getD [] ++ [name])) deps
      buildMaps packageNames rest inDeg1 deps1
    else buildMaps packageNames rest inDeg deps

/-- JS Map construction keyed by name: the last entry for a name wins. -/
def lookupPkgLast (packages : List WPkg) (n : String) : Option WPkg :=
  packages.reverse.find? (fun p => p.name = n)

/-- topologicalSortCrates: Kahn s algorithm over the internal dependency
graph; when a cycle leaves packages unresolved they are appended in
original discovery order. -/
def topologicalSortCrates (packages : List WPkg)
    (dependencyMap : List (String × List String)) : List WPkg :=
  let packageNames := dedupKeep [] (packages.map (·.name))
  let inDeg0 : List (String × Int) := packageNames.map (fun n => (n, 0))
  let deps0 : List (String × List String) := packageNames.map (fun n => (n, []))
  let built := buildMaps packageNames dependencyMap inDeg0 deps0
  let queue0 := (built.1.filter (fun p => p.2 = 0)).map (·.1)
  let sortedNames := kahnLoop built.2 built.1 queue0 []
  let sorted := sortedNames.filterMap (fun n => lookupPkgLast packages n)
  if sorted.length < packages.length then
    let sn := sorted.map (·.name)
    sorted ++ packages.filter (fun p => !(sn.contains p.name))
  else sorted

/-- A parsed Cargo manifest, restricted to its dependency tables (the
TOML parse itself is the external smol-toml library). -/
structure CargoManifest where
  dependencies : List String
  buildDependencies : List String
  devDependencies : List String
deriving DecidableEq, Repr

/-- parseCrateDependencies: the dependency and build-dependency names,
never the dev-dependencies. -/
def parseCrateDependencies (m : CargoManifest) : List String :=
  m.dependencies ++ m.buildDependencies

/-- The internal dependency list of a name under a dependency map and a
package-name set: the edges the sort actually uses. -/
def depsF (packageNames : List String) (dependencyMap : List (String × List String))
    (b : String) : List String :=
  if packageNames.contains b then
    ((getA dependencyMap b).getD []).filter (fun d => packageNames.contains d)
  else []

/-! ## Publish orchestration (src/publish.ts and the adapters)

The registry exec call is modelled by an outcome function from package
to optional error message (none means the publish command succeeded);
the crates.io propagation wait between successive Rust publishes always
returns here, since its timeout failure escapes the adapter and is
outside the fail-fast claim.  Adapters are modelled by their
orchestrator-visible capability record. -/

structure PublishResult where
  packageName : String
  success : Bool
  error : Option String
deriving DecidableEq, Repr

structure PublishSummary where
  ecosystem : String
  skipped : Bool
  skipReason : Option String
  results : List PublishResult
deriving DecidableEq, Repr

/-- The per-ecosystem publish loop shared by the JavaScript and Rust
adapters: publish in order, record one result per attempt, and break
out of the loop on the first failure. -/
def publishSeq (outcome : WPkg → Option String) : List WPkg → List PublishResult
  | [] => []
  | p :: rest =>
    match outcome p with
    | none => ⟨p.name, true, none⟩ :: publishSeq outcome rest
    | some err => [⟨p.name, false, some err⟩]

/-- JavaScriptAdapter.publishPackages: filter to JavaScript packages and
run the fail-fast loop in the given order. -/
def jsPublishPackages (outcome : WPkg → Option String) (packages : List WPkg) :
    List PublishResult :=
  publishSeq outcome (packages.filter (fun p => p.ecosystem = "javascript"))

/-- RustAdapter.publishPackages: filter to Rust packages, order them
topologically by the crate dependency map, and run the fail-fast loop. -/
def rustPublishPackages (outcome : WPkg → Option String)
    (dependencyMap : List (String × List String)) (packages : List WPkg) :
    List PublishResult :=
  publishSeq outcome
    (topologicalSortCrates (packages.filter (fun p => p.ecosystem = "rust")) dependencyMap)

/-- The orchestrator-visible capability record of one ecosystem adapter. -/
structure AdapterModel where
  type : String
  displayName : String
  prereqReady : Bool
  prereqReason : Option String
  isPrivate : WPkg → Bool
  publishPackages : List WPkg → List PublishResult

/-- The body of the orchestrator loop for one adapter: prerequisite
gate, private-package filter, empty-set skip, then the adapter publish. -/
def summaryFor (packages : List WPkg) (a : AdapterModel) : PublishSummary :=
  if !a.prereqReady then ⟨a.displayName, true, a.prereqReason, []⟩
  else
    let ecosystemPackages := packages.filter (fun p => p.ecosystem = a.type)
    let publishable := ecosystemPackages.filter (fun p => !a.isPrivate p)
    if publishable.length = 0 then
      ⟨a.displayName, true, some "No publishable packages (all private)", []⟩
    else ⟨a.displayName, false, none, a.publishPackages publishable⟩

/-- publishAllPackages: run every adapter in turn (Go is skipped, it
publishes via git tags); each adapter contributes one summary and a
failure inside one adapter never stops the loop. -/
def publishAllPackages (packages : List WPkg) : List AdapterModel → List PublishSummary
  | [] => []
  | a :: rest =>
    if a.type = "go" then publishAllPackages packages rest
    else summaryFor packages a :: publishAllPackages packages rest

/-- hasPublishFailures: some ecosystem recorded a failed publish. -/
def hasPublishFailures (summaries : List PublishSummary) : Bool :=
  summaries.any (fun s => s.results.any (fun r => !r.success))

/-! ## PR-summary rendering (src/formatting.ts)

String lengths are measured in characters; JS measures UTF-16 code
units, which can only be larger, and the bounds proved below carry
thousands of characters of slack, so the budget statements transfer. -/

/-- The display marker for a commit (getCommitPrefix in the source; the
name avoids a reserved suffix). -/
def getCommitMarker (c : CommitInfo) : String :=
  if c.breaking then "⚠️ BREAKING: "
  else
    match c.type with
    | some "feat" => "✨ "
    | some "fix" => "🐛 "
    | some "perf" => "⚡ "
    | some "test" => "✅ "
    | some "docs" => "📝 "
    | some "refactor" => "♻️ "
    | some "chore" => "🔧 "
    | some "style" => "💄 "
    | some "build" => "📦 "
    | some "ci" => "👷 "
    | _ => "❓ "

/-- Full-detail rendering of one commit: hash, marker, subject or raw
first line, then the body indented two spaces after a blank line. -/
def formatCommitFull (c : CommitInfo) : String :=
  let description := c.subject.getD c.rawMessage
  let base := "- " ++ c.hash ++ ": " ++ getCommitMarker c ++ description
  match c.body with
  | some b =>
    if b.trim = "" then base
    else
      let indentedBody := joinSep "\n" ((splitOnC '\n' b).map (fun ln => "  " ++ ln))
      base ++ "\n\n" ++ indentedBody
  | none => base

/-- Summary-only rendering of one commit: hash, marker, subject. -/
def formatCommitSummaryLine (c : CommitInfo) : String :=
  "- " ++ c.hash ++ ": " ++ getCommitMarker c ++ (c.subject.getD c.rawMessage)

/-- The human label for a commit type in the remainder breakdown (the
JS switch rendered as a conditional chain). -/
def getTypeLabel (o : Option String) : String :=
  match o with
  | none => "other"
  | some t =>
    if t = "feat" then "features"
    else if t = "fix" then "fixes"
    else if t = "perf" then "performance"
    else if t = "test" then "tests"
    else if t = "docs" then "docs"
    else if t = "refactor" then "refactors"
    else if t = "chore" then "chores"
    else if t = "style" then "style"
    else if t = "build" then "build"
    else if t = "ci" then "ci"
    else "other"

/-- The remainder-breakdown label of one commit. -/
def remainderLabel (c : CommitInfo) : String :=
  if c.breaking then "breaking changes" else getTypeLabel c.type

/-- Count the remaining commits per label, in first-seen label order. -/
def countLabels (remaining : List CommitInfo) : List (String × Nat) :=
  remaining.foldl
    (fun m c =>
      let label := remainderLabel c
      setA m label ((getA m label).getD 0 + 1))
    []

/-- Stable descending insertion by count (the JS comparator b minus a
under a stable sort). -/
def insertDescByCount (x : String × Nat) : List (String × Nat) → List (String × Nat)
  | [] => [x]
  | y :: rest => if y.2 ≤ x.2 then x :: y :: rest else y :: insertDescByCount x rest

/-- Stable descending sort by count. -/
def sortDescByCount : List (String × Nat) → List (String × Nat)
  | [] => []
  | x :: rest => insertDescByCount x (sortDescByCount rest)

/-- The phase-3 suffix: a count of the unrendered commits with a
per-label breakdown sorted by decreasing count. -/
def buildRemainderSuffix (remaining : List CommitInfo) : String :=
  let parts := (sortDescByCount (countLabels remaining)).map
    (fun p => natToDec p.2 ++ " " ++ p.1)
  "\n\n*...and " ++ natToDec remaining.length ++ " more commits (" ++
    joinSep ", " parts ++ ")*"

/-- Phase 1 of generatePRSummary: append full-detail entries while the
accumulated text plus the next addition stays within the full-detail
limit; the check happens before appending.  Returns the text and the
commits not yet rendered. -/
def phase1 : List CommitInfo → String → String × List CommitInfo
  | [], acc => (acc, [])
  | c :: rest, acc =>
    let entry := formatCommitFull c
    let addition := (if acc = "" then "" else "\n\n") ++ entry
    if acc.length + addition.length > 40000 then (acc, c :: rest)
    else phase1 rest (acc ++ addition)

/-- Phase 2: append summary-only lines within the summary limit. -/
def phase2 : List CommitInfo → String → String × List CommitInfo
  | [], acc => (acc, [])
  | c :: rest, acc =>
    let addition := "\n" ++ formatCommitSummaryLine c
    if acc.length + addition.length > 60000 then (acc, c :: rest)
    else phase2 rest (acc ++ addition)

/-- The marker inserted between the full-detail and summary tiers. -/
def tierMarker : String := "\n\n---\n*Remaining commits shown without details:*\n"

/-- generatePRSummary: three-tier degradation with the checks before the
appends; empty input renders empty output. -/
def generatePRSummary (commits : List CommitInfo) : String :=
  let p1 := phase1 commits ""
  let afterMarker := if p1.2 = [] then p1.1 else p1.1 ++ tierMarker
  let p2 := phase2 p1.2 afterMarker
  if p2.2 = [] then p2.1 else p2.1 ++ buildRemainderSuffix p2.2

/-- The untruncated full-detail rendering (what the first tier produces
when everything fits): entries joined by blank lines. -/
def fullJoin (commits : List CommitInfo) : String :=
  joinSep "\n\n" (commits.map formatCommitFull)

/-- Phase 1 without its budget check: the accumulation it performs when
every addition fits. -/
def phase1All : List CommitInfo → String → String
  | [], acc => acc
  | c :: rest, acc =>
    phase1All rest (acc ++ ((if acc = "" then "" else "\n\n") ++ formatCommitFull c))

/-- All labels the remainder breakdown can produce. -/
def labelUniverse : List String :=
  ["breaking changes", "features", "fixes", "performance", "tests", "docs",
    "refactors", "chores", "style", "build", "ci", "other"]

/-! ## Changelog generation (src/changelog.ts)

The filesystem is an association list from path to file content; the
current date is passed in explicitly. -/

/-- Display text of a commit: subject, else the raw first line. -/
def getCommitDisplayText (c : CommitInfo) : String := c.subject.getD c.rawMessage

/-- The known conventional types (the Other bucket excludes them). -/
def knownTypes : List String :=
  ["feat", "fix", "perf", "test", "docs", "chore", "refactor", "style", "build", "ci"]

/-- One titled changelog section: empty when no commits qualify, else a
heading followed by one bullet line per commit and a blank line. -/
def typeSection (title : String) (cs : List CommitInfo) : String :=
  if cs = [] then ""
  else
    "### " ++ title ++ "\n\n" ++
      String.join (cs.map (fun c => "- " ++ getCommitDisplayText c ++ "\n")) ++ "\n"

/-- generateChangelogSection: the version heading with the date, then
the fixed section order (breaking changes first, the Other bucket of
unclassified non-breaking commits last). -/
def generateChangelogSection (today newVersion : String) (commits : List CommitInfo) :
    String :=
  let breaking := commits.filter (·.breaking)
  let features := commits.filter (fun c => c.type = some "feat" && !c.breaking)
  let fixes := commits.filter (fun c => c.type = some "fix")
  let perf := commits.filter (fun c => c.type = some "perf")
  let tests := commits.filter (fun c => c.type = some "test")
  let docs := commits.filter (fun c => c.type = some "docs")
  let chores := commits.filter (fun c => c.type = some "chore")
  let refactors := commits.filter (fun c => c.type = some "refactor")
  let styles := commits.filter (fun c => c.type = some "style")
  let builds := commits.filter (fun c => c.type = some "build")
  let ci := commits.filter (fun c => c.type = some "ci")
  let other := commits.filter
    (fun c => !c.breaking &&
      (match c.type with
        | none => true
        | some t => !knownTypes.contains t))
  "## " ++ newVersion ++ " (" ++ today ++ ")\n\n" ++
    typeSection "BREAKING CHANGES" breaking ++
    typeSection "Features" features ++
    typeSection "Bug Fixes" fixes ++
    typeSection "Performance Improvements" perf ++
    typeSection "Tests" tests ++
    typeSection "Documentation" docs ++
    typeSection "Refactoring" refactors ++
    typeSection "Chores" chores ++
    typeSection "Styles" styles ++
    typeSection "Build" builds ++
    typeSection "CI" ci ++
    typeSection "Other" other

/-- groupCommitsByPackage: an insertion-ordered map from package name to
the commits attributed to it, in commit order. -/
def groupCommitsByPackage (commits : List CommitInfo) : List (String × List CommitInfo) :=
  commits.foldl
    (fun m c =>
      c.packages.foldl
        (fun m2 name => setA m2 name ((getA m2 name).getD [] ++ [c]))
        m)
    []

/-- The retained top-level changelog heading. -/
def changelogHeader : String := "# Changelog\n\n"

/-- Strip the standard heading from pre-existing changelog text, as the
generator does before prepending. -/
def stripHeaderTxt (existing : String) : String :=
  if startsWithS existing changelogHeader then existing.drop changelogHeader.length
  else existing

/-- generateChangelogs over the modelled filesystem: for every package
with at least one attributed commit, prepend a new version section to
its changelog (reading a missing file as empty text); packages with no
attributed commits are skipped entirely. -/
def generateChangelogs (today newVersion : String) (commits : List CommitInfo)
    (packages : List WPkg) (fs : List (String × String)) : List (String × String) :=
  let grouped := groupCommitsByPackage commits
  packages.foldl
    (fun fsAcc pkg =>
      let packageCommits := (getA grouped pkg.name).getD []
      if packageCommits.length = 0 then fsAcc
      else
        let changelogPath := pkg.path ++ "/CHANGELOG.md"
        let existing := (getA fsAcc changelogPath).getD ""
        let versionSection := generateChangelogSection today newVersion packageCommits
        setA fsAcc changelogPath
          (changelogHeader ++ versionSection ++ stripHeaderTxt existing))
    fs

/-! ## Manifest version rewriting (src/ecosystems/rust.ts and the
JavaScript adapter)

The Rust path rewrites the manifest line by line; the JavaScript path
re-parses and re-serialises the whole file.  JSON.parse and
JSON.stringify are modelled for flat objects with plain string values,
which is the shape the counterexample uses. -/

/-- The section-header test the scanner applies to the trimmed line. -/
def sectionHeaderOf (trimmed : List Char) : Option String :=
  match trimmed with
  | '[' :: rest =>
    let inner := rest.takeWhile (fun c => c ≠ ']')
    if inner = [] then none
    else
      match rest.drop inner.length with
      | [']'] => some (String.mk inner).trim
      | _ => none
  | _ => none

/-- The version-assignment line pattern: leading whitespace, the word
version, whitespace, an equals sign, whitespace, a double-quoted value,
then any remainder; returns the text before the opening quote, the
quoted value and the remainder. -/
def matchVersionLine (l : List Char) : Option (List Char × List Char × List Char) :=
  let ws1 := l.takeWhile (fun c => c.isWhitespace)
  let r1 := l.dropWhile (fun c => c.isWhitespace)
  if ("version".data).isPrefixOf r1 then
    let r2 := r1.drop 7
    let ws2 := r2.takeWhile (fun c => c.isWhitespace)
    let r3 := r2.dropWhile (fun c => c.isWhitespace)
    match r3 with
    | '=' :: r4 =>
      let ws3 := r4.takeWhile (fun c => c.isWhitespace)
      let r5 := r4.dropWhile (fun c => c.isWhitespace)
      match r5 with
      | '"' :: r6 =>
        let body := r6.takeWhile (fun c => c ≠ '"')
        match r6.dropWhile (fun c => c ≠ '"') with
        | '"' :: rest => some (ws1 ++ "version".data ++ ws2 ++ '=' :: ws3, body, rest)
        | _ => none
      | _ => none
    | _ => none
  else none

/-- The line scanner of replaceVersionInSection: track the current
section from header lines, and rewrite the first version assignment
inside the target section, leaving every other line untouched. -/
def replaceLines (sectionName newVersion : String) :
    List String → String → Bool → List String
  | [], _, _ => []
  | line :: rest, currentSection, replaced =>
    match sectionHeaderOf line.trim.data with
    | some sec => line :: replaceLines sectionName newVersion rest sec replaced
    | none =>
      if replaced = false ∧ currentSection = sectionName then
        match matchVersionLine line.data with
        | some (g1, _, g2) =>
          String.mk (g1 ++ '"' :: newVersion.data ++ '"' :: g2) ::
            replaceLines sectionName newVersion rest currentSection true
        | none => line :: replaceLines sectionName newVersion rest currentSection replaced
      else line :: replaceLines sectionName newVersion rest currentSection replaced

/-- replaceVersionInSection: split into lines, scan, rejoin. -/
def replaceVersionInSection (content sectionName newVersion : String) : String :=
  joinSep "\n" (replaceLines sectionName newVersion (splitOnC '\n' content) "" false)

/-- GoAdapter.updateVersions: a no-op on the filesystem (Go versions are
purely git tags). -/
def goUpdateVersions (fs : List (String × String)) : List (String × String) := fs

/-- Whitespace skip for the flat JSON parser. -/
def skipWs (l : List Char) : List Char := l.dropWhile (fun c => c.isWhitespace)

/-- Parse one double-quoted plain string (no escape sequences, which do
not occur in the inputs considered). -/
def parseJStr (l : List Char) : Option (String × List Char) :=
  match l with
  | '"' :: r =>
    let body := r.takeWhile (fun c => c ≠ '"')
    match r.drop body.length with
    | '"' :: rest => some (String.mk body, rest)
    | _ => none
  | _ => none

/-- Parse the comma-separated key-value entries of a flat JSON object. -/
def parseEntriesF : Nat → List Char → Option (List (String × String) × List Char)
  | 0, _ => none
  | fuel + 1, l =>
    match parseJStr (skipWs l) with
    | none => none
    | some (k, r1) =>
      match skipWs r1 with
      | ':' :: r2 =>
        match parseJStr (skipWs r2) with
        | none => none
        | some (v, r3) =>
          match skipWs r3 with
          | ',' :: r4 =>
            match parseEntriesF fuel r4 with
            | some (fs, rest) => some ((k, v) :: fs, rest)
            | none => none
          | '\x7d' :: r4 => some ([(k, v)], r4)
          | _ => none
      | _ => none

/-- JSON.parse restricted to flat objects with plain string values. -/
def parseJsonFlat (s : String) : Option (List (String × String)) :=
  match skipWs s.data with
  | '\x7b' :: r =>
    match skipWs r with
    | '\x7d' :: rest => if skipWs rest = [] then some [] else none
    | r1 =>
      match parseEntriesF (r1.length + 1) r1 with
      | some (fs, rest) => if skipWs rest = [] then some fs else none
      | none => none
  | _ => none

/-- JSON.stringify with a two-space indent on a flat string object. -/
def stringify2 (fields : List (String × String)) : String :=
  match fields with
  | [] => "\x7b\x7d"
  | _ =>
    "\x7b\n" ++
      joinSep ",\n"
        (fields.map (fun kv => "  \"" ++ kv.1 ++ "\": \"" ++ kv.2 ++ "\"")) ++
      "\n\x7d"

/-- The JavaScript adapter per-file version write: parse the manifest,
assign the version property (updating it in place when present), and
re-serialise with a two-space indent and a trailing newline; none when
the content does not parse. -/
def jsUpdateManifestText (content newVersion : String) : Option String :=
  (parseJsonFlat content).map
    (fun fs => stringify2 (setA fs "version" newVersion) ++ "\n")

/-! ## Claim-side definitions

These follow the words of the specification (not the source) and exist
only to be compared against the source-derived definitions above. -/

/-- Spec-side release boundary for the commit analyzer: a ReleaseMarker
is any commit whose message matches one of the release-announcement
surface forms, so the analyzer should return exactly the commits
strictly newer than the most recent such commit, oldest first. -/
def specAnalyzeSince (history : List RawCommit) : List RawCommit :=
  (history.takeWhile (fun c => !(isReleaseCommit c.message))).reverse

/-- Spec-side breaking flag: the type suffix carries the breaking
marker (the header parses with a bang), or a breaking-change footer
note is present. -/
def specIsBreaking (c : RawCommit) : Bool :=
  (match parseHeader c.message with
    | some h => h.bang
    | none => false) ||
  hasBreakingNote (fullMessage c)

/-- Spec-side format preservation: the file content after the write is
byte-identical to the content before except for the version field value. -/
def versionOnlyChange (before after oldV newV : String) : Prop :=
  ∃ p s, before = p ++ oldV ++ s ∧ after = p ++ newV ++ s

/-- The internal dependency edge relation of the crate graph: a is a
dependency of b. -/
def edgeRel (packageNames : List String) (dependencyMap : List (String × List String))
    (a b : String) : Prop :=
  a ∈ depsF packageNames dependencyMap b

/-- Dependency-before-dependent ordering of a name list: wherever a name
appears, all of its internal dependencies appear strictly earlier. -/
def depsBeforeNames (packageNames : List String)
    (dependencyMap : List (String × List String)) (out : List String) : Prop :=
  ∀ s1 b s2, out = s1 ++ b :: s2 → ∀ a ∈ depsF packageNames dependencyMap b, a ∈ s1

/-- Dependency-before-dependent ordering of a package list. -/
def depsBeforePkgs (packageNames : List String)
    (dependencyMap : List (String × List String)) (out : List WPkg) : Prop :=
  depsBeforeNames packageNames dependencyMap (out.map (·.name))

/-! # Theorems -/

/-! ## C1: version bump priority -/

/-- C1: calculateVersionBump implements the strict bump priority: any
breaking commit yields major; otherwise any feat commit yields minor;
otherwise any fix or perf commit yields patch; otherwise (including the
empty list and lists of only null or non-releasing types) the result is
none with no new version; and the scenario of a feat and a fix commit
against 1.0.0 yields minor with new version 1.1.0. -/
theorem C1_calculateVersionBump_priority (v : String) (commits : List CommitInfo) :
    ((∃ c ∈ commits, c.breaking = true) →
      (calculateVersionBump v commits).bumpType = some BumpType.major) ∧
    ((∀ c ∈ commits, c.breaking = false) → (∃ c ∈ commits, c.type = some "feat") →
      (calculateVersionBump v commits).bumpType = some BumpType.minor) ∧
    ((∀ c ∈ commits, c.breaking = false) → (∀ c ∈ commits, c.type ≠ some "feat") →
      (∃ c ∈ commits, c.type = some "fix" ∨ c.type = some "perf") →
      (calculateVersionBump v commits).bumpType = some BumpType.patch) ∧
    ((∀ c ∈ commits, c.breaking = false ∧ c.type ≠ some "feat" ∧
        c.type ≠ some "fix" ∧ c.type ≠ some "perf") →
      calculateVersionBump v commits = ⟨none, none⟩) ∧
    calculateVersionBump "1.0.0"
      (analyzeCommits "/repo" []
        [⟨"h2", "fix: crash on Y", "", []⟩, ⟨"h1", "feat: add X", "", []⟩]) =
      ⟨some BumpType.minor, some "1.1.0"⟩ := by
  refine ⟨?_, ?_, ?_, ?_, by decide⟩
  · rintro ⟨c, hc, hb⟩
    have hlen : commits.length ≠ 0 := by
      cases commits with
      | nil => cases hc
      | cons _ _ => simp
    have hany : commits.any (·.breaking) = true := by
      rw [List.any_eq_true]; exact ⟨c, hc, hb⟩
    simp [calculateVersionBump, hlen, hany]
  · rintro hnb ⟨c, hc, ht⟩
    have hlen : commits.length ≠ 0 := by
      cases commits with
      | nil => cases hc
      | cons _ _ => simp
    have hanyb : commits.any (·.breaking) = false := by
      rw [List.any_eq_false]; intro x hx; simp [hnb x hx]
    have hanyf : commits.any (fun c => c.type = some "feat") = true := by
      rw [List.any_eq_true]
      exact ⟨c, hc, by simp [ht]⟩
    simp [calculateVersionBump, hlen, hanyb, hanyf]
  · rintro hnb hnf ⟨c, hc, ht⟩
    have hlen : commits.length ≠ 0 := by
      cases commits with
      | nil => cases hc
      | cons _ _ => simp
    have hanyb : commits.any (·.breaking) = false := by
      rw [List.any_eq_false]; intro x hx; simp [hnb x hx]
    have hanyf : commits.any (fun c => c.type = some "feat") = false := by
      rw [List.any_eq_false]; intro x hx; simp [hnf x hx]
    have hanyp : commits.any (fun c => c.type = some "fix" || c.type = some "perf") = true := by
      rw [List.any_eq_true]
      refine ⟨c, hc, ?_⟩
      rcases ht with h | h <;> simp [h]
    simp [calculateVersionBump, hlen, hanyb, hanyf, hanyp]
  · intro hall
    by_cases hlen : commits.length = 0
    · simp [calculateVersionBump, hlen]
    · have hanyb : commits.any (·.breaking) = false := by
        rw [List.any_eq_false]; intro x hx; simp [(hall x hx).1]
      have hanyf : commits.any (fun c => c.type = some "feat") = false := by
        rw [List.any_eq_false]; intro x hx; simp [(hall x hx).2.1]
      have hanyp : commits.any (fun c => c.type = some "fix" || c.type = some "perf") = false := by
        rw [List.any_eq_false]; intro x hx
        simp [(hall x hx).2.2.1, (hall x hx).2.2.2]
      simp [calculateVersionBump, hlen, hanyb, hanyf, hanyp]

/-- Witness for C1: a single breaking commit against 1.0.0 yields a
major bump, by the first conjunct of the theorem at a concrete input. -/
theorem C1_calculateVersionBump_priority_witness :
    (calculateVersionBump "1.0.0"
      [⟨"h1", some "feat", none, some "x", none, true, [], [], "feat!: x"⟩]).bumpType =
      some BumpType.major :=
  (C1_calculateVersionBump_priority "1.0.0"
      [⟨"h1", some "feat", none, some "x", none, true, [], [], "feat!: x"⟩]).1
    ⟨⟨"h1", some "feat", none, some "x", none, true, [], [], "feat!: x"⟩, by decide, rfl⟩

/-! ## C2: the analyzer release boundary -/

theorem findIdxA_lt_length {α : Type} (p : α → Bool) (l : List α) (i : Nat)
    (h : findIdxA p l = some i) : i < l.length := by
  induction l generalizing i with
  | nil => simp [findIdxA] at h
  | cons a t ih =>
    simp only [findIdxA] at h
    by_cases hp : p a
    · simp only [hp, if_true, Option.some.injEq] at h
      subst h
      simp
    · simp only [hp, Bool.false_eq_true, if_false, Option.map_eq_some'] at h
      obtain ⟨j, hj, rfl⟩ := h
      have := ih j hj
      simp only [List.length_cons]
      omega

theorem findIdxA_none_takeWhile {α : Type} (p : α → Bool) (l : List α)
    (h : findIdxA p l = none) : l.takeWhile (fun a => !p a) = l := by
  induction l with
  | nil => simp
  | cons a t ih =>
    simp only [findIdxA] at h
    by_cases hp : p a
    · simp [hp] at h
    · simp only [hp, if_neg, Bool.false_eq_true, if_false, Option.map_eq_none'] at h
      simp [List.takeWhile_cons, hp, ih h]

theorem findIdxA_some_takeWhile {α : Type} (p : α → Bool) (l : List α) (i : Nat)
    (h : findIdxA p l = some i) : l.takeWhile (fun a => !p a) = l.take i := by
  induction l generalizing i with
  | nil => simp [findIdxA] at h
  | cons a t ih =>
    simp only [findIdxA] at h
    by_cases hp : p a
    · simp [hp] at h
      subst h
      simp [List.takeWhile_cons, hp]
    · simp only [hp, if_neg, Bool.false_eq_true, if_false, Option.map_eq_some'] at h
      obtain ⟨j, hj, rfl⟩ := h
      simp [List.takeWhile_cons, hp, ih j hj]

/-- The staged slicing of the analyzer equals the one-pass slice of the
newest 100 commits: everything strictly before the first
release-prefixed commit among them (the deeper fetches are dead code,
since the log total of the 100-deep call never exceeds 100). -/
theorem stagedSlice_eq_takeWhile (history : List RawCommit) :
    stagedSlice history =
      (history.take 100).takeWhile (fun c => !isReleasePrefixed c) := by
  simp only [stagedSlice, releaseIdx]
  split
  next i h100 =>
    exact (findIdxA_some_takeWhile isReleasePrefixed (history.take 100) i h100).symm
  next h100 =>
    rw [if_neg ?hlen]
    case hlen =>
      have hle := List.length_take_le 100 history
      omega
    exact (findIdxA_none_takeWhile isReleasePrefixed (history.take 100) h100).symm

set_option maxRecDepth 8000 in
/-- C2 counterexample, two independent failures of the claim.  First, a
commit announcing a release in the chore-release surface form is a
ReleaseMarker by the spec (third conjunct), yet the analyzer does not
cut the history at it: the spec boundary keeps only the strictly newer
commit h1, while the analyzer returns all three commits.  Second, the
analyzer never looks past the newest 100 commits: in a 120-commit
history whose only marker sits at depth 119 the spec boundary keeps the
119 newer commits, but the analyzer returns just the newest 100 — the
widening step compares the simple-git log total, which is the
returned-entry count of the 100-deep call, against 100, so it never
fires. -/
theorem C2_analyzeCommits_counterexample :
    (analyzeCommits "/r" []
        [⟨"h1", "feat: new", "", []⟩, ⟨"h2", "chore: release v1.2.3", "", []⟩,
          ⟨"h3", "feat: old", "", []⟩]).map (·.hash) = ["h3", "h2", "h1"] ∧
    (specAnalyzeSince
        [⟨"h1", "feat: new", "", []⟩, ⟨"h2", "chore: release v1.2.3", "", []⟩,
          ⟨"h3", "feat: old", "", []⟩]).map (·.hash) = ["h1"] ∧
    isReleaseCommit "chore: release v1.2.3" = true ∧
    (analyzeCommits "/r" []
        (List.replicate 119 ⟨"h", "feat: x", "", []⟩ ++
          [⟨"hm", "release: 1.0.0", "", []⟩])).length = 100 ∧
    (specAnalyzeSince
        (List.replicate 119 ⟨"h", "feat: x", "", []⟩ ++
          [⟨"hm", "release: 1.0.0", "", []⟩])).length = 119 := by
  refine ⟨by decide, by decide, by decide, by decide, by decide⟩

/-- C2 amended: the analyzer examines only the newest 100 commits — the
deeper staged fetches are dead code because the simple-git log total is
the returned-entry count — and its boundary is the literal message text
starting with release-colon-space, not the general release-announcement
patterns; it returns, oldest first, the classified commits among the
newest 100 that are strictly newer than the most recent such marker
among them, the whole 100-commit window when none of them is a marker,
and hence the entire history exactly when the history has at most 100
commits and no marker. -/
theorem C2_analyzeCommits_boundary (repoPath : String) (pkgs : List WPkg)
    (history : List RawCommit) :
    analyzeCommits repoPath pkgs history =
      (((history.take 100).takeWhile
          (fun c => !(startsWithS c.message "release: "))).map
        (classifyRaw repoPath pkgs)).reverse ∧
    ((∀ c ∈ history.take 100, startsWithS c.message "release: " = false) →
      analyzeCommits repoPath pkgs history =
        ((history.take 100).map (classifyRaw repoPath pkgs)).reverse) ∧
    (history.length ≤ 100 →
      (∀ c ∈ history, startsWithS c.message "release: " = false) →
      analyzeCommits repoPath pkgs history =
        (history.map (classifyRaw repoPath pkgs)).reverse) := by
  have htw : ∀ (l : List RawCommit),
      (∀ c ∈ l, startsWithS c.message "release: " = false) →
      l.takeWhile (fun c => !isReleasePrefixed c) = l := by
    intro l
    induction l with
    | nil => intro _; rfl
    | cons a t ih =>
      intro hl
      have ha := hl a (by simp)
      have ht := ih (fun c hc => hl c (List.mem_cons_of_mem a hc))
      have ha2 : isReleasePrefixed a = false := by simpa [isReleasePrefixed] using ha
      simp [List.takeWhile_cons, ha2, ht]
  refine ⟨?_, ?_, ?_⟩
  · unfold analyzeCommits
    rw [stagedSlice_eq_takeWhile]
    rfl
  · intro hnone
    unfold analyzeCommits
    rw [stagedSlice_eq_takeWhile, htw (history.take 100) hnone]
  · intro hlen hnone
    have heq : history.take 100 = history := List.take_of_length_le hlen
    unfold analyzeCommits
    rw [stagedSlice_eq_takeWhile, heq, htw history hnone]

/-- Witness for C2 amended: a two-commit history with no release marker
fits inside the 100-commit window and is returned whole, oldest
first. -/
theorem C2_analyzeCommits_boundary_witness :
    analyzeCommits "/r" [] [⟨"h2", "fix: b", "", []⟩, ⟨"h1", "feat: a", "", []⟩] =
      ([⟨"h2", "fix: b", "", []⟩, ⟨"h1", "feat: a", "", []⟩].map
        (classifyRaw "/r" [])).reverse :=
  (C2_analyzeCommits_boundary "/r" [] _).2.2 (by decide) (by decide)

/-! ## C8: the breaking flag -/

theorem isPrefixOf_append_self (l t : List Char) : l.isPrefixOf (l ++ t) = true := by
  rw [List.isPrefixOf_iff_prefix]
  exact List.prefix_append l t

theorem containsSubL_of_chunk (pat l1 l2 : List Char) :
    containsSubL pat (l1 ++ (pat ++ l2)) = true := by
  induction l1 with
  | nil =>
    cases pat with
    | nil =>
      cases l2 with
      | nil => rfl
      | cons c r => simp [containsSubL]
    | cons p pr =>
      have hpre := isPrefixOf_append_self (p :: pr) l2
      simp only [List.cons_append] at hpre
      simp [containsSubL, hpre]
  | cons c r ih =>
    simp [containsSubL, ih]

theorem parseTail_bang (post : List Char) (subj : String)
    (h : parseTail post = some (true, subj)) :
    post = '!' :: ':' :: ' ' :: subj.data := by
  unfold parseTail at h
  split at h
  · simp only [Option.some.injEq, Prod.mk.injEq, true_and] at h
    rename_i rest
    rw [← h]
  · simp at h
  · simp at h

theorem parenSplits_mem (l pre post : List Char)
    (h : (pre, post) ∈ parenSplits l) : l = pre ++ ')' :: post := by
  induction l generalizing pre post with
  | nil => simp [parenSplits] at h
  | cons c rest ih =>
    simp only [parenSplits, List.mem_append, List.mem_map] at h
    rcases h with ⟨p, hp, heq⟩ | h
    · have h1 : pre = c :: p.1 := (Prod.ext_iff.mp heq).1.symm
      have h2 : post = p.2 := (Prod.ext_iff.mp heq).2.symm
      subst h1
      subst h2
      have := ih p.1 p.2 (by simpa using hp)
      simp [this]
    · by_cases hc : c = ')'
      · simp only [hc, if_true, List.mem_singleton, Prod.mk.injEq] at h
        obtain ⟨rfl, rfl⟩ := h
        simp [hc]
      · simp [hc] at h

theorem firstScopeParse_mem (L : List (List Char × List Char)) (sc : String) (b : Bool)
    (subj : String) (h : firstScopeParse L = some (sc, b, subj)) :
    ∃ scl post, (scl, post) ∈ L ∧ sc = String.mk scl ∧ parseTail post = some (b, subj) := by
  induction L with
  | nil => simp [firstScopeParse] at h
  | cons x more ih =>
    simp only [firstScopeParse] at h
    cases ht : parseTail x.2 with
    | some bs =>
      rw [ht] at h
      simp only [Option.some.injEq, Prod.mk.injEq] at h
      have hbs : bs = (b, subj) := by
        cases bs
        simp only [Prod.mk.injEq]
        exact ⟨h.2.1, h.2.2⟩
      exact ⟨x.1, x.2, by simp, h.1.symm, by rw [ht, hbs]⟩
    | none =>
      rw [ht] at h
      obtain ⟨scl, post, hmem, hsc, hp⟩ := ih h
      exact ⟨scl, post, List.mem_cons_of_mem x hmem, hsc, hp⟩

/-- A header that parses with the breaking bang contains the
bang-colon substring in its text. -/
theorem header_bang_contains (m : String) (hd : Header)
    (h : parseHeader m = some hd) (hb : hd.bang = true) :
    containsSub m "!:" = true := by
  simp only [parseHeader] at h
  split at h
  · rename_i inner heq
    split at h
    · rename_i sc b subj hscope
      simp only [Option.some.injEq] at h
      have hbang : b = true := by rw [← h] at hb; exact hb
      subst hbang
      obtain ⟨scl, post, hmem, hsc, hp⟩ := firstScopeParse_mem _ _ _ _ hscope
      have hinner := parenSplits_mem inner scl post hmem
      have hpost := parseTail_bang post subj hp
      have hdata : m.data =
          List.takeWhile isWordChar m.data ++
            ('(' :: (scl ++ (')' :: ('!' :: ':' :: (' ' :: subj.data))))) := by
        conv_lhs => rw [← List.takeWhile_append_dropWhile (p := isWordChar) (l := m.data)]
        rw [heq, hinner, hpost]
      have key := containsSubL_of_chunk ['!', ':']
        (List.takeWhile isWordChar m.data ++ '(' :: scl ++ [')']) (' ' :: subj.data)
      unfold containsSub
      have hbc : ("!:").data = ['!', ':'] := rfl
      rw [hbc, hdata]
      simpa using key
    · exact absurd h (by simp)
  · split at h
    · rename_i b subj hp
      simp only [Option.some.injEq] at h
      have hbang : b = true := by rw [← h] at hb; exact hb
      subst hbang
      have hpost := parseTail_bang _ subj hp
      have hdata : m.data =
          List.takeWhile isWordChar m.data ++ ('!' :: ':' :: (' ' :: subj.data)) := by
        conv_lhs => rw [← List.takeWhile_append_dropWhile (p := isWordChar) (l := m.data)]
        rw [hpost]
      have key := containsSubL_of_chunk ['!', ':']
        (List.takeWhile isWordChar m.data) (' ' :: subj.data)
      unfold containsSub
      have hbc : ("!:").data = ['!', ':'] := rfl
      rw [hbc, hdata]
      simpa using key
    · exact absurd h (by simp)

/-- C8 counterexample: a commit whose subject merely quotes a
bang-colon inside its text is not breaking by the spec (no breaking
type suffix, no footer note), yet the analyzer flags it breaking,
because the source tests the two-character substring anywhere in the
subject line. -/
theorem C8_breaking_counterexample :
    (analyzeCommits "/r" []
        [⟨"h1", "fix: support \"x!:\" flag", "", []⟩]).map (·.breaking) = [true] ∧
    specIsBreaking ⟨"h1", "fix: support \"x!:\" flag", "", []⟩ = false := by
  refine ⟨by decide, by decide⟩

/-- C8 amended: for every commit the analyzer returns, the breaking
flag is true iff a BREAKING CHANGE footer note is present or the
subject line contains the bang-colon substring anywhere; in particular
the spec condition (breaking type suffix or footer note) always implies
the computed flag, so the correction only widens the flag to subjects
that quote bang-colon in other positions. -/
theorem C8_breaking_characterization (repoPath : String) (pkgs : List WPkg)
    (history : List RawCommit) :
    (∀ ci ∈ analyzeCommits repoPath pkgs history, ∃ rc ∈ history,
      ci.rawMessage = rc.message ∧
      ci.breaking = (hasBreakingNote (fullMessage rc) || containsSub rc.message "!:")) ∧
    (∀ rc : RawCommit, specIsBreaking rc = true → analyzedBreaking rc = true) := by
  constructor
  · intro ci hci
    unfold analyzeCommits at hci
    rw [List.mem_reverse, List.mem_map] at hci
    obtain ⟨rc, hrc, rfl⟩ := hci
    have hmem : rc ∈ history := by
      rw [stagedSlice_eq_takeWhile] at hrc
      have h1 : rc ∈ history.take 100 := (List.takeWhile_sublist _).subset hrc
      exact (List.take_sublist 100 history).subset h1
    exact ⟨rc, hmem, rfl, rfl⟩
  · intro rc hspec
    unfold specIsBreaking at hspec
    unfold analyzedBreaking
    rcases Bool.or_eq_true_iff.mp hspec with hbang | hnote
    · cases hh : parseHeader rc.message with
      | none => rw [hh] at hbang; simp at hbang
      | some hd =>
        rw [hh] at hbang
        have := header_bang_contains rc.message hd hh hbang
        simp [this]
    · simp [hnote]

/-- Witness for C8 amended: the breaking flag of a bang-header commit
matches the footer-or-substring characterization at a concrete input. -/
theorem C8_breaking_characterization_witness :
    ∃ rc ∈ [(⟨"h1", "feat!: remove API", "", []⟩ : RawCommit)],
      (classifyRaw "/r" [] ⟨"h1", "feat!: remove API", "", []⟩).rawMessage = rc.message ∧
      (classifyRaw "/r" [] ⟨"h1", "feat!: remove API", "", []⟩).breaking =
        (hasBreakingNote (fullMessage rc) || containsSub rc.message "!:") :=
  (C8_breaking_characterization "/r" [] [⟨"h1", "feat!: remove API", "", []⟩]).1
    (classifyRaw "/r" [] ⟨"h1", "feat!: remove API", "", []⟩) (by decide)

/-! ## C9: git-based version resolution -/

theorem findSomeA_append {α β : Type} (f : α → Option β) (l1 l2 : List α) :
    findSomeA f (l1 ++ l2) =
      match findSomeA f l1 with
      | some b => some b
      | none => findSomeA f l2 := by
  induction l1 with
  | nil => simp [findSomeA]
  | cons a t ih =>
    simp only [List.cons_append, findSomeA]
    cases f a with
    | some b => simp
    | none => simpa using ih

/-- The staged search of strategy 1 equals the one-pass search of the
newest 100 commits: the deeper scans are dead code, since the log total
of the 100-deep call never exceeds 100. -/
theorem stage1Search_eq (history : List RawCommit) :
    stage1Search history = findSomeA releaseVersionOf (history.take 100) := by
  simp only [stage1Search]
  split
  next v h100 => exact h100.symm
  next h100 =>
    rw [if_neg ?hlen]
    case hlen =>
      have hle := List.length_take_le 100 history
      omega
    exact h100.symm

/-- A successful version-head match is never the empty string: it
always contains the dotted numeric core. -/
theorem vnumAt_ne_empty (l : List Char) (s : String) (h : vnumAt l = some s) :
    s ≠ "" := by
  have hd : s.data ≠ [] := by
    simp only [vnumAt] at h
    split at h
    · simp at h
    · split at h
      · split at h
        · simp at h
        · split at h
          · split at h
            · simp at h
            · split at h
              · split at h
                · simp only [Option.some.injEq] at h
                  rw [← h]
                  simp
                · simp only [Option.some.injEq] at h
                  rw [← h]
                  simp
              · simp only [Option.some.injEq] at h
                rw [← h]
                simp
          · simp at h
      · simp at h
  intro heq
  rw [heq] at hd
  exact hd rfl

theorem scanRelease_suffix (l : List Char) (prev : Option Char)
    (h : scanRelease prev l = true) :
    ∃ l', l' <:+ l ∧ releaseWordAt l' = true := by
  induction l generalizing prev with
  | nil => simp [scanRelease] at h
  | cons c rest ih =>
    simp only [scanRelease, Bool.or_eq_true, Bool.and_eq_true] at h
    rcases h with ⟨hb, hw⟩ | hs
    · exact ⟨c :: rest, List.suffix_refl _, hw⟩
    · obtain ⟨l', hsuf, hw⟩ := ih (some c) hs
      exact ⟨l', hsuf.trans (List.suffix_cons c rest), hw⟩

theorem tryK_vnum (k : Nat) (rest : List Char) (h : tryK k rest = true) :
    ∃ l2, l2 <:+ rest ∧ (vnumAt l2).isSome = true := by
  induction k generalizing rest with
  | zero => exact ⟨rest, List.suffix_refl _, by simpa [tryK] using h⟩
  | succ n ih =>
    cases rest with
    | nil => simp [tryK] at h
    | cons c r =>
      simp only [tryK, Bool.and_eq_true] at h
      obtain ⟨l2, hsuf, hv⟩ := ih r h.2
      exact ⟨l2, hsuf.trans (List.suffix_cons c r), hv⟩

theorem releaseWordAt_vnum (l : List Char) (h : releaseWordAt l = true) :
    ∃ l2, l2 <:+ l ∧ (vnumAt l2).isSome = true := by
  unfold releaseWordAt at h
  split at h
  · rename_i r e l1 e2 a s e3 rest
    simp only [Bool.and_eq_true, anyK, Bool.or_eq_true] at h
    have hany := h.2
    have hrest : ∃ l2, l2 <:+ rest ∧ (vnumAt l2).isSome = true := by
      rcases hany with ((hk | hk) | hk) | hk
      · exact tryK_vnum 0 rest hk
      · exact tryK_vnum 1 rest hk
      · exact tryK_vnum 2 rest hk
      · exact tryK_vnum 3 rest hk
    obtain ⟨l2, hsuf, hv⟩ := hrest
    refine ⟨l2, ?_, hv⟩
    calc l2 <:+ rest := hsuf
      _ <:+ r :: e :: l1 :: e2 :: a :: s :: e3 :: rest := by
        refine (List.suffix_cons e3 rest).trans ?_
        refine (List.suffix_cons s _).trans ?_
        refine (List.suffix_cons a _).trans ?_
        refine (List.suffix_cons e2 _).trans ?_
        refine (List.suffix_cons l1 _).trans ?_
        refine (List.suffix_cons e _).trans ?_
        exact List.suffix_cons r _
  · simp at h

theorem firstVNumScan_isSome (l l2 : List Char) (hs : l2 <:+ l)
    (h : (vnumAt l2).isSome = true) : (firstVNumScan l).isSome = true := by
  induction l with
  | nil =>
    rw [List.suffix_nil] at hs
    subst hs
    exact absurd h (by decide)
  | cons c rest ih =>
    rcases List.suffix_cons_iff.mp hs with rfl | hs'
    · simp only [firstVNumScan]
      cases hv : vnumAt (c :: rest) with
      | some s => simp
      | none => rw [hv] at h; simp at h
    · simp only [firstVNumScan]
      cases hv : vnumAt (c :: rest) with
      | some s => simp
      | none => exact ih hs'

theorem firstVNumScan_from_vnum (l : List Char) (v : String)
    (h : firstVNumScan l = some v) : ∃ l2, vnumAt l2 = some v := by
  induction l with
  | nil => simp [firstVNumScan] at h
  | cons c rest ih =>
    simp only [firstVNumScan] at h
    cases hv : vnumAt (c :: rest) with
    | some s =>
      simp only [hv] at h
      simp only [Option.some.injEq] at h
      exact ⟨c :: rest, by rw [hv, h]⟩
    | none =>
      simp only [hv] at h
      exact ih h

/-- A release commit always yields an extractable nonempty version. -/
theorem isRelease_extract (m : String) (h : isReleaseCommit m = true) :
    ∃ v, extractVersionFromCommit m = some v ∧ v ≠ "" := by
  have h2 := h
  unfold isReleaseCommit at h2
  obtain ⟨l', hsuf, hw⟩ := scanRelease_suffix m.data none h2
  obtain ⟨l2, hsuf2, hv⟩ := releaseWordAt_vnum l' hw
  have hscan : (firstVNumScan m.data).isSome = true :=
    firstVNumScan_isSome m.data l2 (hsuf2.trans hsuf) hv
  obtain ⟨v, hv2⟩ := Option.isSome_iff_exists.mp hscan
  obtain ⟨lw, hlw⟩ := firstVNumScan_from_vnum m.data v hv2
  refine ⟨v, ?_, vnumAt_ne_empty lw v hlw⟩
  unfold extractVersionFromCommit
  rw [h, if_pos rfl]
  exact hv2

theorem findSomeA_eq_head_filterMap {α β : Type} (f : α → Option β) (l : List α) :
    findSomeA f l = (l.filterMap f).head? := by
  induction l with
  | nil => simp [findSomeA]
  | cons a t ih =>
    simp only [findSomeA, List.filterMap_cons]
    cases f a with
    | some b => simp
    | none => simpa using ih

theorem splitOnCL_no_sep (sep : Char) (a : List Char) (ha : ∀ c ∈ a, c ≠ sep) :
    splitOnCL sep a = [a] := by
  induction a with
  | nil => rfl
  | cons c r ih =>
    have hc : c ≠ sep := ha c (by simp)
    have hr := ih (fun x hx => ha x (by simp [hx]))
    simp [splitOnCL, hc, hr]

theorem splitOnCL_sep_append (sep : Char) (a b : List Char) (ha : ∀ c ∈ a, c ≠ sep) :
    splitOnCL sep (a ++ sep :: b) = a :: splitOnCL sep b := by
  induction a with
  | nil => simp [splitOnCL]
  | cons c r ih =>
    have hc : c ≠ sep := ha c (by simp)
    have hr := ih (fun x hx => ha x (by simp [hx]))
    simp only [List.cons_append, splitOnCL, hc, if_neg, if_false]
    rw [show r.append (sep :: b) = r ++ sep :: b from rfl, hr]

theorem findSomeA_none_of_all {α β : Type} (f : α → Option β) (l : List α)
    (h : ∀ x ∈ l, f x = none) : findSomeA f l = none := by
  induction l with
  | nil => rfl
  | cons a t ih =>
    simp only [findSomeA]
    rw [h a (by simp)]
    exact ih (fun x hx => h x (by simp [hx]))

/-- C9 counterexample, two independent failures of the claim.  First,
the resolver never sees a release commit deeper than the newest 100
commits: with the only marker at depth 100 and no tags it falls through
to 0.0.0 instead of the marker version — the widening step compares the
simple-git log total, the returned-entry count of the 100-deep call,
against 100, so it never fires.  Second, the tag pick is the first tag
in the order git returns, not the semantically greatest: git's default
version sort places 1.0.0-rc1 above 1.0.0, and the resolver then
returns the prerelease even though semver precedence puts it strictly
below 1.0.0. -/
theorem C9_resolveCurrentVersion_counterexample :
    isReleaseCommit "release: 9.9.9" = true ∧
    extractVersionFromCommit "release: 9.9.9" = some "9.9.9" ∧
    resolveCurrentVersion
      (List.replicate 100 ⟨"h", "feat: x", "", []⟩ ++
        [⟨"hm", "release: 9.9.9", "", []⟩]) [] = "0.0.0" ∧
    resolveCurrentVersion [] ["v1.0.0-rc1", "v1.0.0"] = "1.0.0-rc1" ∧
    versionStrLe "1.0.0-rc1" "1.0.0" = true ∧
    ("1.0.0-rc1" : String) ≠ "1.0.0" := by
  refine ⟨by decide, by decide, by decide, by decide, by decide, by decide⟩

/-- C9 amended: resolveCurrentVersion always terminates with a value
and follows the priority order with a bounded first stage: the version
embedded in the most recent release commit among the newest 100 commits
when one exists (the deeper staged scans are dead code, because the
simple-git log total is the returned-entry count); otherwise the first
tag of the strict form vMAJOR.MINOR.PATCH[-prerelease] or its
unprefixed equivalent in the order the version-sorted git call returns
— git's greatest by tag order, which need not be the semver-greatest
when prerelease tags are present; otherwise the string 0.0.0. -/
theorem C9_resolveCurrentVersion_priority (history : List RawCommit) (tags : List String) :
    (resolveCurrentVersion history tags =
      match findSomeA releaseVersionOf (history.take 100) with
      | some v => v
      | none =>
        match findSomeA strictTagVersion tags with
        | some v => v
        | none => "0.0.0") ∧
    (∀ pre c post, history = pre ++ c :: post →
      pre.length < 100 →
      (∀ x ∈ pre, isReleaseCommit x.message = false) →
      isReleaseCommit c.message = true →
      ∃ v, extractVersionFromCommit c.message = some v ∧
        resolveCurrentVersion history tags = v) ∧
    ((∀ x ∈ history.take 100, isReleaseCommit x.message = false) →
      match tags.filterMap strictTagVersion with
      | [] => resolveCurrentVersion history tags = "0.0.0"
      | v :: _ => resolveCurrentVersion history tags = v) := by
  have hchar : resolveCurrentVersion history tags =
      match findSomeA releaseVersionOf (history.take 100) with
      | some v => v
      | none =>
        match findSomeA strictTagVersion tags with
        | some v => v
        | none => "0.0.0" := by
    unfold resolveCurrentVersion
    rw [stage1Search_eq]
  refine ⟨hchar, ?_, ?_⟩
  · intro pre c post hh hlen hpre hrel
    obtain ⟨v, hv, hne⟩ := isRelease_extract c.message hrel
    have htake : history.take 100 = pre ++ c :: post.take (99 - pre.length) := by
      rw [hh, List.take_append_eq_append_take,
        List.take_of_length_le (le_of_lt (by omega))]
      congr 1
      have h99 : 100 - pre.length = (99 - pre.length) + 1 := by omega
      rw [h99, List.take_succ_cons]
    have hpre2 : findSomeA releaseVersionOf pre = none := by
      apply findSomeA_none_of_all
      intro x hx
      unfold releaseVersionOf
      rw [hpre x hx]
      simp
    have hc : releaseVersionOf c = some v := by
      unfold releaseVersionOf
      rw [hrel, if_pos rfl, hv]
      simp [hne]
    refine ⟨v, hv, ?_⟩
    rw [hchar, htake, findSomeA_append, hpre2]
    simp only [findSomeA, hc]
  · intro hnone
    have h1 : findSomeA releaseVersionOf (history.take 100) = none := by
      apply findSomeA_none_of_all
      intro x hx
      unfold releaseVersionOf
      rw [hnone x hx]
      simp
    have h2 := findSomeA_eq_head_filterMap strictTagVersion tags
    cases hvs : tags.filterMap strictTagVersion with
    | nil =>
      rw [hchar, h1, h2, hvs]
      rfl
    | cons v rest =>
      rw [hvs] at h2
      rw [hchar, h1, h2]
      rfl

/-- Witness for C9: a marker at depth zero wins over everything — the
second conjunct of the theorem applied with the empty prefix at a
concrete two-commit history. -/
theorem C9_resolveCurrentVersion_priority_witness :
    ∃ v, extractVersionFromCommit "release: 2.3.4" = some v ∧
      resolveCurrentVersion
        [⟨"hm", "release: 2.3.4", "", []⟩, ⟨"h1", "feat: x", "", []⟩]
        ["v9.9.9"] = v :=
  (C9_resolveCurrentVersion_priority
      [⟨"hm", "release: 2.3.4", "", []⟩, ⟨"h1", "feat: x", "", []⟩]
      ["v9.9.9"]).2.1 [] ⟨"hm", "release: 2.3.4", "", []⟩
    [⟨"h1", "feat: x", "", []⟩] rfl (by decide) (by decide) (by decide)

/-! ## C5: fail-fast publishing and ecosystem independence -/

/-- C5: within an ecosystem the publish loop is fail-fast: all packages
before the first failure are published with success results, the
failing package records the last result, and no later package is
attempted; any failure entry sits at the last position; and the
orchestrator gives every non-Go adapter its own summary computed only
from that adapter and the package list, independent of any other
adapter s results. -/
theorem C5_publish_failfast :
    (∀ (outcome : WPkg → Option String) (ps1 ps2 : List WPkg) (p : WPkg) (e : String),
      (∀ q ∈ ps1, outcome q = none) → outcome p = some e →
      publishSeq outcome (ps1 ++ p :: ps2) =
        ps1.map (fun q => ⟨q.name, true, none⟩) ++ [⟨p.name, false, some e⟩]) ∧
    (∀ (outcome : WPkg → Option String) (pkgs : List WPkg),
      (∀ q ∈ pkgs, outcome q = none) →
      publishSeq outcome pkgs = pkgs.map (fun q => ⟨q.name, true, none⟩)) ∧
    (∀ (outcome : WPkg → Option String) (pkgs : List WPkg) (i : Nat) (r : PublishResult),
      (publishSeq outcome pkgs)[i]? = some r → r.success = false →
      i = (publishSeq outcome pkgs).length - 1) ∧
    (∀ (packages : List WPkg) (adapters : List AdapterModel),
      publishAllPackages packages adapters =
        (adapters.filter (fun a => a.type != "go")).map (summaryFor packages)) := by
  refine ⟨?_, ?_, ?_, ?_⟩
  · intro outcome ps1 ps2 p e hok hfail
    induction ps1 with
    | nil => simp [publishSeq, hfail]
    | cons q r ih =>
      have hq := hok q (by simp)
      have hr := ih (fun x hx => hok x (by simp [hx]))
      simp [publishSeq, hq, hr]
  · intro outcome pkgs hok
    induction pkgs with
    | nil => rfl
    | cons q r ih =>
      have hq := hok q (by simp)
      have hr := ih (fun x hx => hok x (by simp [hx]))
      simp [publishSeq, hq, hr]
  · intro outcome pkgs
    induction pkgs with
    | nil => intro i r h; simp [publishSeq] at h
    | cons p rest ih =>
      intro i r hget hfail
      cases ho : outcome p with
      | some e =>
        have hps : publishSeq outcome (p :: rest) =
            [⟨p.name, false, some e⟩] := by
          simp [publishSeq, ho]
        rw [hps] at hget ⊢
        cases i with
        | zero => simp
        | succ j => simp at hget
      | none =>
        have hps : publishSeq outcome (p :: rest) =
            ⟨p.name, true, none⟩ :: publishSeq outcome rest := by
          simp [publishSeq, ho]
        rw [hps] at hget ⊢
        cases i with
        | zero =>
          simp only [List.getElem?_cons_zero, Option.some.injEq] at hget
          rw [← hget] at hfail
          simp at hfail
        | succ j =>
          simp only [List.getElem?_cons_succ] at hget
          have hj := ih j r hget hfail
          have hlen : j < (publishSeq outcome rest).length := by
            by_contra hc
            rw [List.getElem?_eq_none (by omega)] at hget
            exact absurd hget (by simp)
          simp only [List.length_cons]
          omega
  · intro packages adapters
    induction adapters with
    | nil => rfl
    | cons a rest ih =>
      by_cases hgo : a.type = "go"
      · simp [publishAllPackages, hgo, List.filter_cons, ih]
      · simp [publishAllPackages, hgo, List.filter_cons, ih]

/-- Witness for C5: a three-package ecosystem where the second publish
fails: the first package succeeds, the failure is recorded last, and
the third package is never attempted. -/
theorem C5_publish_failfast_witness :
    publishSeq
      (fun p => if p.name = "bad" then some "publish failed" else none)
      [⟨"good", "1.0.0", "/g", "javascript"⟩, ⟨"bad", "1.0.0", "/b", "javascript"⟩,
        ⟨"after", "1.0.0", "/a", "javascript"⟩] =
      [⟨"good", true, none⟩, ⟨"bad", false, some "publish failed"⟩] :=
  C5_publish_failfast.1
    (fun p => if p.name = "bad" then some "publish failed" else none)
    [⟨"good", "1.0.0", "/g", "javascript"⟩]
    [⟨"after", "1.0.0", "/a", "javascript"⟩]
    ⟨"bad", "1.0.0", "/b", "javascript"⟩
    "publish failed"
    (by decide) (by decide)

/-! ## C4: the PR-summary budget -/

theorem phase1_length_le : ∀ (l : List CommitInfo) (acc : String),
    acc.length ≤ 40000 → (phase1 l acc).1.length ≤ 40000 := by
  intro l
  induction l with
  | nil => intro acc h; simpa [phase1] using h
  | cons c rest ih =>
    intro acc h
    simp only [phase1]
    split <;> split
    all_goals
      first
        | exact h
        | (rename_i hb
           exact ih _ (by rw [String.length_append]; omega))

theorem phase2_length_le : ∀ (l : List CommitInfo) (acc : String),
    acc.length ≤ 60000 → (phase2 l acc).1.length ≤ 60000 := by
  intro l
  induction l with
  | nil => intro acc h; simpa [phase2] using h
  | cons c rest ih =>
    intro acc h
    simp only [phase2]
    split
    · exact h
    · rename_i hb
      exact ih _ (by rw [String.length_append]; omega)

theorem phase1_rest_suffix (l : List CommitInfo) (acc : String) :
    (phase1 l acc).2 <:+ l := by
  induction l generalizing acc with
  | nil => simp [phase1]
  | cons c rest ih =>
    simp only [phase1]
    split <;> split
    all_goals
      first
        | exact List.suffix_refl _
        | exact (ih _).trans (List.suffix_cons c rest)

theorem phase2_rest_suffix (l : List CommitInfo) (acc : String) :
    (phase2 l acc).2 <:+ l := by
  induction l generalizing acc with
  | nil => simp [phase2]
  | cons c rest ih =>
    simp only [phase2]
    split
    · exact List.suffix_refl _
    · exact (ih _).trans (List.suffix_cons c rest)

theorem getA_mem {α : Type} (m : List (String × α)) (k : String) (v : α)
    (h : getA m k = some v) : (k, v) ∈ m := by
  induction m with
  | nil => simp [getA] at h
  | cons p rest ih =>
    simp only [getA] at h
    split at h
    · rename_i heq
      simp only [Option.some.injEq] at h
      have hp : (k, v) = p := by
        rw [← heq, ← h]
      rw [hp]
      exact List.mem_cons_self p rest
    · exact List.mem_cons_of_mem p (ih h)

theorem mem_setA {α : Type} (m : List (String × α)) (k : String) (v : α) (p : String × α)
    (h : p ∈ setA m k v) : p = (k, v) ∨ p ∈ m := by
  induction m with
  | nil => simpa [setA] using h
  | cons q rest ih =>
    simp only [setA] at h
    split at h
    · rcases List.mem_cons.mp h with h | h
      · exact Or.inl h
      · exact Or.inr (List.mem_cons_of_mem q h)
    · rcases List.mem_cons.mp h with h | h
      · exact Or.inr (by simp [h])
      · rcases ih h with h2 | h2
        · exact Or.inl h2
        · exact Or.inr (List.mem_cons_of_mem q h2)

theorem keys_setA {α : Type} (m : List (String × α)) (k : String) (v : α) :
    (setA m k v).map Prod.fst =
      if k ∈ m.map Prod.fst then m.map Prod.fst else m.map Prod.fst ++ [k] := by
  induction m with
  | nil => simp [setA]
  | cons q rest ih =>
    simp only [setA]
    by_cases hq : q.1 = k
    · simp [hq]
    · have hmem : (k ∈ (q :: rest).map Prod.fst) = (k ∈ rest.map Prod.fst) := by
        simp [List.map_cons, Ne.symm hq]
      by_cases hk : k ∈ rest.map Prod.fst
      · simp [hq, ih, hk, Ne.symm hq]
      · simp [hq, ih, hk, Ne.symm hq]

theorem getTypeLabel_mem (o : Option String) : getTypeLabel o ∈ labelUniverse := by
  cases o with
  | none => simp [getTypeLabel, labelUniverse]
  | some t =>
    simp only [getTypeLabel]
    repeat' split
    all_goals simp [labelUniverse]

theorem remainderLabel_mem (c : CommitInfo) : remainderLabel c ∈ labelUniverse := by
  unfold remainderLabel
  split
  · simp [labelUniverse]
  · exact getTypeLabel_mem c.type

theorem countLabels_invariant (r : List CommitInfo) (m : List (String × Nat)) (bound : Nat)
    (hu : ∀ p ∈ m, p.1 ∈ labelUniverse) (hn : (m.map Prod.fst).Nodup)
    (hb : ∀ p ∈ m, p.2 ≤ bound) :
    (∀ p ∈ r.foldl (fun m2 c =>
        setA m2 (remainderLabel c) ((getA m2 (remainderLabel c)).getD 0 + 1)) m,
      p.1 ∈ labelUniverse ∧ p.2 ≤ bound + r.length) ∧
    ((r.foldl (fun m2 c =>
        setA m2 (remainderLabel c) ((getA m2 (remainderLabel c)).getD 0 + 1)) m).map
      Prod.fst).Nodup := by
  induction r generalizing m bound with
  | nil =>
    refine ⟨fun p hp => ⟨hu p hp, by simpa using hb p hp⟩, hn⟩
  | cons c rest ih =>
    simp only [List.foldl_cons]
    set lab := remainderLabel c with hlab
    set m1 := setA m lab ((getA m lab).getD 0 + 1) with hm1
    have hu1 : ∀ p ∈ m1, p.1 ∈ labelUniverse := by
      intro p hp
      rcases mem_setA m lab _ p hp with rfl | hp2
      · exact remainderLabel_mem c
      · exact hu p hp2
    have hn1 : (m1.map Prod.fst).Nodup := by
      rw [hm1, keys_setA]
      split
      · exact hn
      · rename_i hnotin
        have h2 : ∀ x : Nat, (lab, x) ∉ m := by
          intro x hx
          exact hnotin (List.mem_map_of_mem Prod.fst hx)
        simpa [List.nodup_append] using ⟨hn, h2⟩
    have hb1 : ∀ p ∈ m1, p.2 ≤ bound + 1 := by
      intro p hp
      rcases mem_setA m lab _ p hp with rfl | hp2
      · simp only
        cases hg : getA m lab with
        | none => simp
        | some w =>
          have := hb _ (getA_mem m lab w hg)
          simp only [Option.getD_some]
          omega
      · have := hb p hp2
        omega
    have := ih m1 (bound + 1) hu1 hn1 hb1
    refine ⟨fun p hp => ⟨(this.1 p hp).1, ?_⟩, this.2⟩
    have := (this.1 p hp).2
    simp only [List.length_cons]
    omega

theorem insertDescByCount_perm (x : String × Nat) (l : List (String × Nat)) :
    (insertDescByCount x l).Perm (x :: l) := by
  induction l with
  | nil => simp [insertDescByCount]
  | cons y rest ih =>
    simp only [insertDescByCount]
    split
    · exact List.Perm.refl _
    · exact (List.Perm.cons y ih).trans (List.Perm.swap x y rest)

theorem sortDescByCount_perm (l : List (String × Nat)) :
    (sortDescByCount l).Perm l := by
  induction l with
  | nil => simp [sortDescByCount]
  | cons x rest ih =>
    exact (insertDescByCount_perm x (sortDescByCount rest)).trans (List.Perm.cons x ih)

theorem nodup_subset_length_le (l u : List String) (hn : l.Nodup) (hs : ∀ x ∈ l, x ∈ u) :
    l.length ≤ u.length := by
  have h1 : l.toFinset.card = l.length := List.toFinset_card_of_nodup hn
  have h2 : l.toFinset ⊆ u.toFinset := by
    intro x hx
    rw [List.mem_toFinset] at hx ⊢
    exact hs x hx
  have h3 := Finset.card_le_card h2
  have h4 := List.toFinset_card_le u
  omega

theorem joinSep_length_le (sep : String) (parts : List String) (c : Nat)
    (h : ∀ s ∈ parts, s.length ≤ c) :
    (joinSep sep parts).length ≤ parts.length * (c + sep.length) := by
  induction parts with
  | nil => simp [joinSep]
  | cons x rest ih =>
    cases rest with
    | nil =>
      have := h x (by simp)
      simp only [joinSep, List.length_singleton, one_mul]
      omega
    | cons y r2 =>
      have hx := h x (by simp)
      have hrest := ih (fun s hs => h s (List.mem_cons_of_mem x hs))
      simp only [joinSep] at hrest ⊢
      rw [String.length_append, String.length_append]
      simp only [List.length_cons] at hrest ⊢
      have : (y :: r2).length * (c + sep.length) = (r2.length + 1) * (c + sep.length) := by
        simp
      nlinarith [hrest]

theorem natToDecAux_length_le : ∀ (k : Nat), 1 ≤ k → ∀ (fuel n : Nat) (acc : List Char),
    n < 10 ^ k → (natToDecAux fuel n acc).length ≤ acc.length + k := by
  intro k
  induction k with
  | zero => omega
  | succ k ih =>
    intro _ fuel n acc hn
    cases fuel with
    | zero =>
      simp [natToDecAux]
    | succ f =>
      simp only [natToDecAux]
      split
      · simp only [List.length_cons]
        omega
      · rename_i h10
        have hk1 : 1 ≤ k := by
          by_contra hk0
          have : k = 0 := by omega
          rw [this] at hn
          norm_num at hn
          omega
        have hdiv : n / 10 < 10 ^ k := by
          rw [Nat.div_lt_iff_lt_mul (by norm_num)]
          calc n < 10 ^ (k + 1) := hn
            _ = 10 ^ k * 10 := by rw [pow_succ]
        have := ih hk1 f (n / 10) (Char.ofNat (48 + n % 10) :: acc) hdiv
        simp only [List.length_cons] at this
        omega

theorem natToDec_length_le (n k : Nat) (h1 : 1 ≤ k) (h2 : n < 10 ^ k) :
    (natToDec n).length ≤ k := by
  unfold natToDec
  rw [String.length_mk]
  have := natToDecAux_length_le k h1 (n + 1) n [] h2
  simpa using this

theorem labelUniverse_length_le : ∀ lab ∈ labelUniverse, lab.length ≤ 16 := by
  decide

/-- The phase-3 suffix is a few hundred characters for any remainder
the platform can represent: the count renders in at most ten digits and
the breakdown has at most twelve label buckets. -/
theorem buildRemainderSuffix_le (remaining : List CommitInfo)
    (hlen : remaining.length < 10 ^ 10) :
    (buildRemainderSuffix remaining).length ≤ 385 := by
  have hC : countLabels remaining = remaining.foldl
      (fun m2 c => setA m2 (remainderLabel c) ((getA m2 (remainderLabel c)).getD 0 + 1))
      [] := rfl
  have hinv := countLabels_invariant remaining [] 0 (by simp) (by simp) (by simp)
  rw [← hC] at hinv
  have hcount_len : (countLabels remaining).length ≤ 12 := by
    have hkeys : ((countLabels remaining).map Prod.fst).Nodup := hinv.2
    have hsub : ∀ x ∈ (countLabels remaining).map Prod.fst, x ∈ labelUniverse := by
      intro x hx
      rw [List.mem_map] at hx
      obtain ⟨p, hp, rfl⟩ := hx
      exact (hinv.1 p hp).1
    have := nodup_subset_length_le _ labelUniverse hkeys hsub
    simpa [labelUniverse] using this
  have hperm := sortDescByCount_perm (countLabels remaining)
  have hsort_len : (sortDescByCount (countLabels remaining)).length =
      (countLabels remaining).length := hperm.length_eq
  have hpart : ∀ s ∈ (sortDescByCount (countLabels remaining)).map
      (fun p => natToDec p.2 ++ " " ++ p.1), s.length ≤ 27 := by
    intro s hs
    rw [List.mem_map] at hs
    obtain ⟨p, hp, rfl⟩ := hs
    have hpmem : p ∈ countLabels remaining := hperm.subset hp
    have hval : p.2 ≤ remaining.length := by
      have := (hinv.1 p hpmem).2
      omega
    have hlab : p.1.length ≤ 16 := labelUniverse_length_le p.1 (hinv.1 p hpmem).1
    have hdec : (natToDec p.2).length ≤ 10 :=
      natToDec_length_le p.2 10 (by norm_num) (by omega)
    rw [String.length_append, String.length_append]
    have hsp : (" " : String).length = 1 := by decide
    omega
  have hjoin := joinSep_length_le ", "
    ((sortDescByCount (countLabels remaining)).map (fun p => natToDec p.2 ++ " " ++ p.1))
    27 hpart
  rw [List.length_map, hsort_len] at hjoin
  have hcomma : (", " : String).length = 2 := by decide
  rw [hcomma] at hjoin
  have hjoin2 : (joinSep ", " ((sortDescByCount (countLabels remaining)).map
      (fun p => natToDec p.2 ++ " " ++ p.1))).length ≤ 348 := by
    have : (countLabels remaining).length * (27 + 2) ≤ 12 * 29 := by
      have := hcount_len
      nlinarith
    omega
  have hN : (natToDec remaining.length).length ≤ 10 :=
    natToDec_length_le remaining.length 10 (by norm_num) hlen
  unfold buildRemainderSuffix
  rw [String.length_append, String.length_append, String.length_append,
    String.length_append]
  have c1 : ("\n\n*...and " : String).length = 10 := by decide
  have c2 : (" more commits (" : String).length = 15 := by decide
  have c3 : (")*" : String).length = 2 := by decide
  rw [c1, c2, c3]
  omega

theorem phase1All_mono (l : List CommitInfo) (acc : String) :
    acc.length ≤ (phase1All l acc).length := by
  induction l generalizing acc with
  | nil => simp [phase1All]
  | cons c rest ih =>
    simp only [phase1All]
    refine le_trans ?_ (ih _)
    rw [String.length_append]
    omega

theorem phase1_complete (l : List CommitInfo) (acc : String)
    (h : (phase1All l acc).length ≤ 40000) : phase1 l acc = (phase1All l acc, []) := by
  induction l generalizing acc with
  | nil => simp [phase1, phase1All]
  | cons c rest ih =>
    have hall : phase1All (c :: rest) acc =
        phase1All rest (acc ++ ((if acc = "" then "" else "\n\n") ++ formatCommitFull c)) :=
      rfl
    have hacc : (acc ++ ((if acc = "" then "" else "\n\n") ++ formatCommitFull c)).length
        ≤ 40000 := by
      refine le_trans (phase1All_mono rest _) ?_
      rw [← hall]
      exact h
    simp only [phase1]
    rw [if_neg (by rw [String.length_append] at hacc; omega)]
    rw [hall]
    exact ih _ (by rw [← hall]; exact h)

theorem str_ne_empty (s : String) (h : 0 < s.length) : s ≠ "" := by
  intro heq
  rw [heq] at h
  simp at h

theorem formatCommitFull_pos (c : CommitInfo) : 0 < (formatCommitFull c).length := by
  have hdash : ("- " : String).length = 2 := by decide
  unfold formatCommitFull
  split
  · split
    · simp only [String.length_append]
      omega
    · simp only [String.length_append]
      omega
  · simp only [String.length_append]
    omega

theorem strAppend_assoc (a b c : String) : (a ++ b) ++ c = a ++ (b ++ c) := by
  cases a with
  | mk da =>
    cases b with
    | mk db =>
      cases c with
      | mk dc =>
        apply String.ext
        simp [String.data_append, List.append_assoc]

theorem phase1All_of_ne (l : List CommitInfo) : ∀ (acc : String), acc ≠ "" →
    phase1All l acc = acc ++ (if l = [] then "" else "\n\n" ++ fullJoin l) := by
  induction l with
  | nil =>
    intro acc hacc
    simp [phase1All]
  | cons c rest ih =>
    intro acc hacc
    have hstep : phase1All (c :: rest) acc =
        phase1All rest (acc ++ ("\n\n" ++ formatCommitFull c)) := by
      simp only [phase1All, hacc, if_neg, if_false]
    have hne : acc ++ ("\n\n" ++ formatCommitFull c) ≠ "" := by
      apply str_ne_empty
      rw [String.length_append, String.length_append]
      have h2 : ("\n\n" : String).length = 2 := by decide
      omega
    rw [hstep, ih _ hne]
    cases rest with
    | nil =>
      have hfj : fullJoin [c] = formatCommitFull c := rfl
      simp [hfj, String.append_empty, strAppend_assoc]
    | cons d r2 =>
      have hfj : fullJoin (c :: d :: r2) =
          formatCommitFull c ++ ("\n\n" ++ fullJoin (d :: r2)) := by
        simp only [fullJoin, List.map_cons, joinSep]
        simp [strAppend_assoc]
      simp [hfj, strAppend_assoc]

theorem phase1All_empty (l : List CommitInfo) : phase1All l "" = fullJoin l := by
  cases l with
  | nil => rfl
  | cons c rest =>
    have hstep : phase1All (c :: rest) "" =
        phase1All rest ("" ++ ("" ++ formatCommitFull c)) := rfl
    have hfc : ("" ++ ("" ++ formatCommitFull c)) = formatCommitFull c := by
      apply String.ext
      simp [String.data_append]
    rw [hstep, hfc]
    have hne := str_ne_empty (formatCommitFull c) (formatCommitFull_pos c)
    rw [phase1All_of_ne rest _ hne]
    cases rest with
    | nil => simp [fullJoin, joinSep, String.append_empty]
    | cons d r2 =>
      simp only [fullJoin, List.map_cons, joinSep]
      simp [strAppend_assoc]

/-- C4: the PR summary is strictly under the 65,536-character platform
budget for every representable commit list (a JS array has fewer than
2 to the 32 elements); the empty list renders the empty string; and
whenever the untruncated full-detail rendering fits the first tier, the
output is exactly that rendering, with no truncation markers. -/
theorem C4_generatePRSummary_budget (commits : List CommitInfo) :
    (commits.length < 4294967296 → (generatePRSummary commits).length < 65536) ∧
    generatePRSummary [] = "" ∧
    ((fullJoin commits).length ≤ 40000 → generatePRSummary commits = fullJoin commits) := by
  refine ⟨?_, rfl, ?_⟩
  · intro hlen
    have h1 : ((phase1 commits "").1).length ≤ 40000 :=
      phase1_length_le commits "" (by decide)
    have hAM : (if (phase1 commits "").2 = [] then (phase1 commits "").1
        else (phase1 commits "").1 ++ tierMarker).length ≤ 60000 := by
      split
      · omega
      · rw [String.length_append]
        have ht : tierMarker.length ≤ 100 := by decide
        omega
    have h2 := phase2_length_le (phase1 commits "").2 _ hAM
    have hsufx : (phase2 (phase1 commits "").2
        (if (phase1 commits "").2 = [] then (phase1 commits "").1
          else (phase1 commits "").1 ++ tierMarker)).2.length < 10 ^ 10 := by
      have hs1 := phase2_rest_suffix (phase1 commits "").2
        (if (phase1 commits "").2 = [] then (phase1 commits "").1
          else (phase1 commits "").1 ++ tierMarker)
      have hs2 := phase1_rest_suffix commits ""
      have hle := (hs1.trans hs2).length_le
      have hpow : (10 : Nat) ^ 10 = 10000000000 := by norm_num
      omega
    simp only [generatePRSummary]
    by_cases hmk : (phase1 commits "").2 = []
    · rw [if_pos hmk] at hAM h2 hsufx
      rw [if_pos hmk]
      split
      · exact lt_of_le_of_lt h2 (by norm_num)
      · rw [String.length_append]
        have hb := buildRemainderSuffix_le _ hsufx
        omega
    · rw [if_neg hmk] at hAM h2 hsufx
      rw [if_neg hmk]
      split
      · exact lt_of_le_of_lt h2 (by norm_num)
      · rw [String.length_append]
        have hb := buildRemainderSuffix_le _ hsufx
        omega
  · intro h
    have hall : phase1All commits "" = fullJoin commits := phase1All_empty commits
    have hcomp : phase1 commits "" = (fullJoin commits, []) := by
      have hc := phase1_complete commits "" (by rw [hall]; exact h)
      rw [hall] at hc
      exact hc
    simp only [generatePRSummary, hcomp]
    simp [phase2]

/-- Witness for C4: a one-commit list stays under the budget, by the
first conjunct of the theorem at a concrete input. -/
theorem C4_generatePRSummary_budget_witness :
    (generatePRSummary
      [⟨"abc1234", some "feat", none, some "add feature", none, false, [], [],
        "feat: add feature"⟩]).length < 65536 :=
  (C4_generatePRSummary_budget
      [⟨"abc1234", some "feat", none, some "add feature", none, false, [], [],
        "feat: add feature"⟩]).1 (by decide)

/-! ## C6: format preservation of version writes -/

theorem isPrefixOf_decomp (pre l : List Char) (h : pre.isPrefixOf l = true) :
    ∃ t, l = pre ++ t := by
  rw [List.isPrefixOf_iff_prefix] at h
  obtain ⟨t, ht⟩ := h
  exact ⟨t, ht.symm⟩

/-- A matched version line decomposes into the retained text before the
opening quote, the quoted value, and the retained remainder. -/
theorem matchVersionLine_decomp (l g1 body g2 : List Char)
    (h : matchVersionLine l = some (g1, body, g2)) :
    l = g1 ++ '"' :: body ++ '"' :: g2 := by
  simp only [matchVersionLine] at h
  split at h
  · rename_i hpre
    split at h
    · rename_i r4 heq3
      split at h
      · rename_i r6 heq5
        split at h
        · rename_i rest heq6
          simp only [Option.some.injEq, Prod.mk.injEq] at h
          obtain ⟨h1, h2, h3⟩ := h
          obtain ⟨t, ht⟩ := isPrefixOf_decomp _ _ hpre
          have hws : ∀ m : List Char, m.takeWhile (fun c => c.isWhitespace) ++
              m.dropWhile (fun c => c.isWhitespace) = m := fun m =>
            List.takeWhile_append_dropWhile _ m
          have hdrop : (l.dropWhile (fun c => c.isWhitespace)).drop 7 = t := by
            rw [ht]
            have h7 : ("version".data).length = 7 := by decide
            rw [← h7, List.drop_left]
          rw [hdrop] at heq3 h1
          have hL : l = List.takeWhile (fun c => c.isWhitespace) l ++
              ("version".data ++ t) := by
            conv_lhs => rw [← hws l]
            rw [ht]
          have hT : t = List.takeWhile (fun c => c.isWhitespace) t ++ ('=' :: r4) := by
            conv_lhs => rw [← hws t]
            rw [heq3]
          have hR4 : r4 = List.takeWhile (fun c => c.isWhitespace) r4 ++ ('"' :: r6) := by
            conv_lhs => rw [← hws r4]
            rw [heq5]
          have hR6 : r6 = body ++ '"' :: rest := by
            conv_lhs => rw [← List.takeWhile_append_dropWhile
              (p := fun c => c ≠ '"') (l := r6)]
            rw [heq6, h2]
          conv_lhs => rw [hL, hT, hR4, hR6]
          rw [← h1, ← h3]
          simp [List.append_assoc]
        · simp at h
      · simp at h
    · simp at h
  · simp at h

/-- Once a replacement has happened the scanner copies every remaining
line unchanged. -/
theorem replaceLines_done (sectionName newVersion : String) :
    ∀ (lines : List String) (cur : String),
      replaceLines sectionName newVersion lines cur true = lines := by
  intro lines
  induction lines with
  | nil => intro cur; rfl
  | cons line rest ih =>
    intro cur
    simp only [replaceLines]
    split
    · rw [ih]
    · simp only [Bool.true_eq_false, false_and, if_neg, if_false]
      rw [ih]

/-- The scanner either leaves every line unchanged or rewrites exactly
one line, replacing only the quoted value of a version assignment. -/
theorem replaceLines_shape (sectionName newVersion : String) :
    ∀ (lines : List String) (cur : String) (rep : Bool),
      replaceLines sectionName newVersion lines cur rep = lines ∨
      ∃ i pre body post,
        lines[i]? = some (String.mk (pre ++ '"' :: body ++ '"' :: post)) ∧
        replaceLines sectionName newVersion lines cur rep =
          lines.set i (String.mk (pre ++ '"' :: newVersion.data ++ '"' :: post)) := by
  intro lines
  induction lines with
  | nil => intro cur rep; exact Or.inl rfl
  | cons line rest ih =>
    intro cur rep
    simp only [replaceLines]
    split
    · rename_i sec hsec
      rcases ih sec rep with hsame | ⟨i, pre, body, post, hget, hset⟩
      · exact Or.inl (by rw [hsame])
      · refine Or.inr ⟨i + 1, pre, body, post, by simpa using hget, ?_⟩
        rw [hset]
        simp
    · split
      · rename_i hcond
        split
        · rename_i g1 body g2 hmatch
          have hdec := matchVersionLine_decomp line.data g1 body g2 hmatch
          refine Or.inr ⟨0, g1, body, g2, ?_, ?_⟩
          · simp only [List.getElem?_cons_zero, Option.some.injEq]
            apply String.ext
            rw [← hdec]
          · rw [replaceLines_done]
            simp
        · rcases ih cur rep with hsame | ⟨i, pre, body, post, hget, hset⟩
          · exact Or.inl (by rw [hsame])
          · refine Or.inr ⟨i + 1, pre, body, post, by simpa using hget, ?_⟩
            rw [hset]
            simp
      · rcases ih cur rep with hsame | ⟨i, pre, body, post, hget, hset⟩
        · exact Or.inl (by rw [hsame])
        · refine Or.inr ⟨i + 1, pre, body, post, by simpa using hget, ?_⟩
          rw [hset]
          simp

/-- C6 counterexample: the JavaScript adapter rewrite of a compact
manifest is not format-preserving: the output differs from the input
beyond the version value (it is re-serialised with two-space indenting
and a trailing newline, so it is not the input with only 1.0.0 replaced
by 2.0.0). -/
theorem C6_jsUpdate_counterexample :
    jsUpdateManifestText "\x7b\"name\":\"a\",\"version\":\"1.0.0\"\x7d" "2.0.0" =
      some "\x7b\n  \"name\": \"a\",\n  \"version\": \"2.0.0\"\n\x7d\n" ∧
    ¬ versionOnlyChange "\x7b\"name\":\"a\",\"version\":\"1.0.0\"\x7d"
        "\x7b\n  \"name\": \"a\",\n  \"version\": \"2.0.0\"\n\x7d\n" "1.0.0" "2.0.0" := by
  constructor
  · decide
  · rintro ⟨p, s, h1, h2⟩
    have hl1 : ("\x7b\"name\":\"a\",\"version\":\"1.0.0\"\x7d" : String).length =
        p.length + ("1.0.0" : String).length + s.length := by
      rw [h1, String.length_append, String.length_append]
    have hl2 : ("\x7b\n  \"name\": \"a\",\n  \"version\": \"2.0.0\"\n\x7d\n" : String).length =
        p.length + ("2.0.0" : String).length + s.length := by
      rw [h2, String.length_append, String.length_append]
    have c1 : ("\x7b\"name\":\"a\",\"version\":\"1.0.0\"\x7d" : String).length = 30 := by decide
    have c2 : ("\x7b\n  \"name\": \"a\",\n  \"version\": \"2.0.0\"\n\x7d\n" : String).length = 40 := by
      decide
    have c3 : ("1.0.0" : String).length = 5 := by decide
    have c4 : ("2.0.0" : String).length = 5 := by decide
    omega

/-- C6 amended: the Rust adapter rewrite is format-preserving — the
output is the input lines with at most one line changed, and on that
line everything but the quoted version value is byte-identical — and
the Go adapter writes nothing; the JavaScript adapter re-serialises the
manifest and is exempt from the claim (see the counterexample). -/
theorem C6_replaceVersion_format_preserving (content sectionName newVersion : String) :
    (replaceVersionInSection content sectionName newVersion =
        joinSep "\n" (splitOnC '\n' content) ∨
      ∃ i pre body post,
        (splitOnC '\n' content)[i]? =
          some (String.mk (pre ++ '"' :: body ++ '"' :: post)) ∧
        replaceVersionInSection content sectionName newVersion =
          joinSep "\n" ((splitOnC '\n' content).set i
            (String.mk (pre ++ '"' :: newVersion.data ++ '"' :: post)))) ∧
    (∀ fs : List (String × String), goUpdateVersions fs = fs) := by
  constructor
  · rcases replaceLines_shape sectionName newVersion (splitOnC '\n' content) "" false with
      hsame | ⟨i, pre, body, post, hget, hset⟩
    · exact Or.inl (by unfold replaceVersionInSection; rw [hsame])
    · exact Or.inr ⟨i, pre, body, post, hget,
        by unfold replaceVersionInSection; rw [hset]⟩
  · intro fs
    rfl

/-! ## C7: changelog generation frame properties -/

theorem getA_setA {α : Type} (m : List (String × α)) (k k' : String) (v : α) :
    getA (setA m k v) k' = if k = k' then some v else getA m k' := by
  induction m with
  | nil => simp [setA, getA]
  | cons q rest ih =>
    obtain ⟨k1, v1⟩ := q
    simp only [setA]
    by_cases h1 : k1 = k
    · rw [if_pos h1]
      by_cases h2 : k = k'
      · simp [getA, h2]
      · have h4 : k1 ≠ k' := by rw [h1]; exact h2
        simp [getA, h2, h4]
    · rw [if_neg h1]
      simp only [getA]
      by_cases h3 : k1 = k'
      · have h5 : ¬(k = k') := fun hc => h1 (h3.trans hc.symm)
        simp [h3, h5]
      · simp [h3, ih]

theorem generateChangelogs_cons (today newVersion : String) (commits : List CommitInfo)
    (q : WPkg) (rest : List WPkg) (fs : List (String × String)) :
    generateChangelogs today newVersion commits (q :: rest) fs =
      generateChangelogs today newVersion commits rest
        (if ((getA (groupCommitsByPackage commits) q.name).getD []).length = 0 then fs
         else setA fs (q.path ++ "/CHANGELOG.md")
           (changelogHeader ++
             generateChangelogSection today newVersion
               ((getA (groupCommitsByPackage commits) q.name).getD []) ++
             stripHeaderTxt ((getA fs (q.path ++ "/CHANGELOG.md")).getD ""))) := rfl

/-- Files whose path is not the changelog path of any package with
attributed commits are left untouched by the changelog fold. -/
theorem generateChangelogs_frame_aux (today newVersion : String) (commits : List CommitInfo) :
    ∀ (packages : List WPkg) (fs : List (String × String)) (p : String),
      (∀ q ∈ packages,
        ((getA (groupCommitsByPackage commits) q.name).getD []).length ≠ 0 →
        q.path ++ "/CHANGELOG.md" ≠ p) →
      getA (generateChangelogs today newVersion commits packages fs) p = getA fs p := by
  intro packages
  induction packages with
  | nil => intro fs p _; rfl
  | cons q rest ih =>
    intro fs p h
    rw [generateChangelogs_cons]
    by_cases hz : ((getA (groupCommitsByPackage commits) q.name).getD []).length = 0
    · rw [if_pos hz]
      exact ih fs p (fun r hr => h r (List.mem_cons_of_mem q hr))
    · rw [if_neg hz]
      rw [ih _ p (fun r hr => h r (List.mem_cons_of_mem q hr))]
      rw [getA_setA]
      rw [if_neg (h q (List.mem_cons_self q rest) hz)]

/-- For a package with attributed commits, the changelog fold stores the
retained heading, the fresh version section, then the stripped previous
content of that package's changelog file. -/
theorem generateChangelogs_get_aux (today newVersion : String) (commits : List CommitInfo) :
    ∀ (packages : List WPkg) (fs : List (String × String)) (pkg : WPkg),
      pkg ∈ packages →
      (packages.map (fun q => q.path ++ "/CHANGELOG.md")).Nodup →
      ((getA (groupCommitsByPackage commits) pkg.name).getD []).length ≠ 0 →
      getA (generateChangelogs today newVersion commits packages fs)
          (pkg.path ++ "/CHANGELOG.md") =
        some (changelogHeader ++
          generateChangelogSection today newVersion
            ((getA (groupCommitsByPackage commits) pkg.name).getD []) ++
          stripHeaderTxt ((getA fs (pkg.path ++ "/CHANGELOG.md")).getD "")) := by
  intro packages
  induction packages with
  | nil => intro fs pkg hmem; exact absurd hmem (List.not_mem_nil pkg)
  | cons q rest ih =>
    intro fs pkg hmem hnd hne
    rw [generateChangelogs_cons]
    have hnotin : (q.path ++ "/CHANGELOG.md") ∉
        rest.map (fun r => r.path ++ "/CHANGELOG.md") :=
      (List.nodup_cons.mp hnd).1
    rcases List.mem_cons.mp hmem with rfl | hmem2
    · rw [if_neg hne]
      rw [generateChangelogs_frame_aux today newVersion commits rest _ _
        (fun r hr _ hc => hnotin (by rw [← hc]; exact List.mem_map_of_mem _ hr))]
      rw [getA_setA, if_pos rfl]
    · have hne2 : q.path ++ "/CHANGELOG.md" ≠ pkg.path ++ "/CHANGELOG.md" :=
        fun hc => hnotin (by rw [hc]; exact List.mem_map_of_mem _ hmem2)
      by_cases hz : ((getA (groupCommitsByPackage commits) q.name).getD []).length = 0
      · rw [if_pos hz]
        exact ih fs pkg hmem2 (List.Nodup.of_cons hnd) hne
      · rw [if_neg hz]
        rw [ih _ pkg hmem2 (List.Nodup.of_cons hnd) hne]
        rw [getA_setA, if_neg hne2]

/-- Pre-existing changelog text decomposes as the retained heading plus
what the generator keeps below the new section, or is kept whole when it
does not start with the heading. -/
theorem stripHeader_decomp (old : String) :
    old = changelogHeader ++ stripHeaderTxt old ∨
      (startsWithS old changelogHeader = false ∧ stripHeaderTxt old = old) := by
  by_cases h : startsWithS old changelogHeader
  · left
    have h' : (changelogHeader.data).isPrefixOf old.data = true := h
    obtain ⟨t, ht⟩ := isPrefixOf_decomp _ _ h'
    simp only [stripHeaderTxt, h, if_true]
    apply String.ext
    show old.data = changelogHeader.data ++ (old.drop changelogHeader.length).data
    rw [String.drop_eq, ht]
    show changelogHeader.data ++ t =
      changelogHeader.data ++ List.drop changelogHeader.length (changelogHeader.data ++ t)
    have hlen : changelogHeader.length = changelogHeader.data.length := rfl
    rw [hlen, List.drop_left]
  · right
    have hf : startsWithS old changelogHeader = false := Bool.eq_false_iff.mpr h
    exact ⟨hf, by simp [stripHeaderTxt, hf]⟩

/-- Folding one commit's package names into the grouping map appends the
commit at exactly the named entries. -/
theorem groupInner_getA (c : CommitInfo) :
    ∀ (ns : List String) (m2 : List (String × List CommitInfo)) (name : String),
      ns.Nodup →
      getA (ns.foldl (fun m2 n => setA m2 n ((getA m2 n).getD [] ++ [c])) m2) name =
        if name ∈ ns then some ((getA m2 name).getD [] ++ [c]) else getA m2 name := by
  intro ns
  induction ns with
  | nil => intro m2 name _; simp
  | cons n0 rest ih =>
    intro m2 name hnd
    simp only [List.foldl_cons]
    rw [ih _ name (List.Nodup.of_cons hnd)]
    by_cases hmem : name ∈ rest
    · rw [if_pos hmem, if_pos (List.mem_cons_of_mem n0 hmem)]
      have hn0 : n0 ≠ name := by
        intro hc
        exact (List.nodup_cons.mp hnd).1 (by rw [hc]; exact hmem)
      rw [getA_setA, if_neg hn0]
    · rw [if_neg hmem]
      by_cases heq : name = n0
      · subst heq
        rw [getA_setA, if_pos rfl, if_pos (List.mem_cons_self name rest)]
      · rw [if_neg (by simp [heq, hmem]), getA_setA,
          if_neg (fun hc => heq hc.symm)]

/-- The grouping fold appends, at every name, exactly the commits that
list that name among their packages. -/
theorem groupFold_getA (commits : List CommitInfo) :
    ∀ (m : List (String × List CommitInfo)) (name : String),
      (∀ c ∈ commits, c.packages.Nodup) →
      (getA (commits.foldl
          (fun m c => c.packages.foldl
            (fun m2 n => setA m2 n ((getA m2 n).getD [] ++ [c])) m) m) name).getD [] =
        (getA m name).getD [] ++ commits.filter (fun c => c.packages.contains name) := by
  induction commits with
  | nil => intro m name _; simp
  | cons c cs ih =>
    intro m name hnd
    simp only [List.foldl_cons]
    rw [ih _ name (fun d hd => hnd d (List.mem_cons_of_mem c hd))]
    rw [groupInner_getA c c.packages m name (hnd c (List.mem_cons_self c cs))]
    by_cases hmem : name ∈ c.packages
    · rw [if_pos hmem]
      have hfil : (c :: cs).filter (fun d => d.packages.contains name) =
          c :: cs.filter (fun d => d.packages.contains name) := by
        simp [List.filter_cons, hmem]
      rw [hfil]
      simp [List.append_assoc]
    · rw [if_neg hmem]
      have hfil : (c :: cs).filter (fun d => d.packages.contains name) =
          cs.filter (fun d => d.packages.contains name) := by
        simp [List.filter_cons, hmem]
      rw [hfil]

/-- The grouped map reads back, at every name, the commits attributed to
that package (provided no commit lists a package twice). -/
theorem grouped_filter (commits : List CommitInfo) (name : String)
    (hnd : ∀ c ∈ commits, c.packages.Nodup) :
    (getA (groupCommitsByPackage commits) name).getD [] =
      commits.filter (fun c => c.packages.contains name) := by
  have h := groupFold_getA commits [] name hnd
  simpa [groupCommitsByPackage, getA] using h

/-- C7: generateChangelogs leaves every file untouched whose path is not
the changelog path of a package with at least one attributed commit — in
particular the files of zero-commit packages — and for a package with
attributed commits it writes the single retained top-level heading, then
the fresh version section for exactly its attributed commits, then the
pre-existing body byte-for-byte. -/
theorem C7_generateChangelogs_frame (today newVersion : String)
    (commits : List CommitInfo) (packages : List WPkg)
    (fs : List (String × String)) (pkg : WPkg) (p : String)
    (hndC : ∀ c ∈ commits, c.packages.Nodup)
    (hndP : (packages.map (fun q => q.path ++ "/CHANGELOG.md")).Nodup)
    (hmem : pkg ∈ packages)
    (hp : ∀ q ∈ packages,
      commits.filter (fun c => c.packages.contains q.name) ≠ [] →
      q.path ++ "/CHANGELOG.md" ≠ p) :
    getA (generateChangelogs today newVersion commits packages fs) p = getA fs p ∧
    (commits.filter (fun c => c.packages.contains pkg.name) ≠ [] →
      ∃ body,
        getA (generateChangelogs today newVersion commits packages fs)
            (pkg.path ++ "/CHANGELOG.md") =
          some (changelogHeader ++
            generateChangelogSection today newVersion
              (commits.filter (fun c => c.packages.contains pkg.name)) ++ body) ∧
        ((getA fs (pkg.path ++ "/CHANGELOG.md")).getD "" = changelogHeader ++ body ∨
          (startsWithS ((getA fs (pkg.path ++ "/CHANGELOG.md")).getD "")
              changelogHeader = false ∧
            body = (getA fs (pkg.path ++ "/CHANGELOG.md")).getD ""))) := by
  constructor
  · apply generateChangelogs_frame_aux
    intro q hq hlen
    apply hp q hq
    intro hc
    apply hlen
    rw [grouped_filter commits q.name hndC, hc]
    rfl
  · intro hne
    have hlen : ((getA (groupCommitsByPackage commits) pkg.name).getD []).length ≠ 0 := by
      rw [grouped_filter commits pkg.name hndC]
      intro hc
      exact hne (List.length_eq_zero.mp hc)
    have hget := generateChangelogs_get_aux today newVersion commits packages fs pkg
      hmem hndP hlen
    rw [grouped_filter commits pkg.name hndC] at hget
    refine ⟨stripHeaderTxt ((getA fs (pkg.path ++ "/CHANGELOG.md")).getD ""), hget, ?_⟩
    rcases stripHeader_decomp ((getA fs (pkg.path ++ "/CHANGELOG.md")).getD "") with
      h | ⟨h1, h2⟩
    · exact Or.inl h
    · exact Or.inr ⟨h1, h2⟩

/-- Witness for C7 at a two-package workspace in which only pkg-a has an
attributed commit: pkg-b's changelog file is untouched and pkg-a's file
gets the heading, the new section, and the previous body verbatim. -/
theorem C7_generateChangelogs_frame_witness :
    (getA (generateChangelogs "2026-10-11" "1.1.0"
        [⟨"h1", some "feat", none, some "add X", none, false, ["pkg-a"], [],
          "feat: add X"⟩]
        [⟨"pkg-a", "1.0.0", "/r/a", "javascript"⟩,
          ⟨"pkg-b", "1.0.0", "/r/b", "javascript"⟩]
        [("/r/b/CHANGELOG.md", "old-b")]) "/r/b/CHANGELOG.md" =
      getA [("/r/b/CHANGELOG.md", "old-b")] "/r/b/CHANGELOG.md") ∧
    (([⟨"h1", some "feat", none, some "add X", none, false, ["pkg-a"], [],
          "feat: add X"⟩] : List CommitInfo).filter
        (fun c => c.packages.contains "pkg-a") ≠ [] →
      ∃ body,
        getA (generateChangelogs "2026-10-11" "1.1.0"
            [⟨"h1", some "feat", none, some "add X", none, false, ["pkg-a"], [],
              "feat: add X"⟩]
            [⟨"pkg-a", "1.0.0", "/r/a", "javascript"⟩,
              ⟨"pkg-b", "1.0.0", "/r/b", "javascript"⟩]
            [("/r/b/CHANGELOG.md", "old-b")]) ("/r/a" ++ "/CHANGELOG.md") =
          some (changelogHeader ++
            generateChangelogSection "2026-10-11" "1.1.0"
              (([⟨"h1", some "feat", none, some "add X", none, false, ["pkg-a"], [],
                  "feat: add X"⟩] : List CommitInfo).filter
                (fun c => c.packages.contains "pkg-a")) ++ body) ∧
        ((getA [("/r/b/CHANGELOG.md", "old-b")] ("/r/a" ++ "/CHANGELOG.md")).getD "" =
            changelogHeader ++ body ∨
          (startsWithS
              ((getA [("/r/b/CHANGELOG.md", "old-b")]
                ("/r/a" ++ "/CHANGELOG.md")).getD "") changelogHeader = false ∧
            body =
              (getA [("/r/b/CHANGELOG.md", "old-b")]
                ("/r/a" ++ "/CHANGELOG.md")).getD ""))) :=
  C7_generateChangelogs_frame "2026-10-11" "1.1.0"
    [⟨"h1", some "feat", none, some "add X", none, false, ["pkg-a"], [],
      "feat: add X"⟩]
    [⟨"pkg-a", "1.0.0", "/r/a", "javascript"⟩,
      ⟨"pkg-b", "1.0.0", "/r/b", "javascript"⟩]
    [("/r/b/CHANGELOG.md", "old-b")]
    ⟨"pkg-a", "1.0.0", "/r/a", "javascript"⟩ "/r/b/CHANGELOG.md"
    (by decide) (by decide) (by decide) (by decide)

/-! ## C3 and C10: topological crate ordering -/

theorem getA_decomp {α : Type} (m : List (String × α)) (b : String) (d : α)
    (h : getA m b = some d) :
    ∃ l1 l2, m = l1 ++ (b, d) :: l2 ∧ b ∉ l1.map Prod.fst ∧
      ∀ v, setA m b v = l1 ++ (b, v) :: l2 := by
  induction m with
  | nil => simp [getA] at h
  | cons q rest ih =>
    obtain ⟨k1, v1⟩ := q
    simp only [getA] at h
    by_cases hk : k1 = b
    · rw [if_pos hk] at h
      simp only [Option.some.injEq] at h
      refine ⟨[], rest, by simp [hk, h], by simp, ?_⟩
      intro v
      simp [setA, hk]
    · rw [if_neg hk] at h
      obtain ⟨l1, l2, hm, hnm, hset⟩ := ih h
      refine ⟨(k1, v1) :: l1, l2, by rw [hm]; rfl, ?_, ?_⟩
      · simp only [List.map_cons, List.mem_cons]
        rintro (hc | hc)
        · exact hk hc.symm
        · exact hnm hc
      · intro v
        simp [setA, hk, hset v]

theorem getA_mapConst {α : Type} (c : α) :
    ∀ (l : List String) (k : String),
      getA (l.map (fun n => (n, c))) k = if k ∈ l then some c else none := by
  intro l
  induction l with
  | nil => intro k; simp [getA]
  | cons x r ih =>
    intro k
    simp only [List.map_cons, getA]
    by_cases hx : x = k
    · rw [if_pos hx, if_pos (by rw [← hx]; exact List.mem_cons_self x r)]
    · rw [if_neg hx, ih k]
      by_cases hk : k ∈ r
      · rw [if_pos hk, if_pos (List.mem_cons_of_mem x hk)]
      · rw [if_neg hk, if_neg (fun hc => by
          rcases List.mem_cons.mp hc with hc2 | hc2
          · exact hx hc2.symm
          · exact hk hc2)]

theorem getA_of_mem_nodup {α : Type} :
    ∀ (m : List (String × α)) (p : String × α),
      (m.map Prod.fst).Nodup → p ∈ m → getA m p.1 = some p.2 := by
  intro m
  induction m with
  | nil => intro p _ hp; exact absurd hp (List.not_mem_nil p)
  | cons q rest ih =>
    intro p hnd hp
    obtain ⟨k1, v1⟩ := q
    rcases List.mem_cons.mp hp with rfl | hp2
    · simp [getA]
    · simp only [getA]
      have hk : k1 ≠ p.1 := by
        intro hc
        exact (List.nodup_cons.mp (by simpa using hnd)).1
          (hc ▸ List.mem_map_of_mem Prod.fst hp2)
      rw [if_neg hk]
      exact ih p (List.Nodup.of_cons (by simpa using hnd)) hp2

theorem dedupKeep_not_mem (x : String) :
    ∀ (l seen : List String), x ∈ seen → x ∉ dedupKeep seen l := by
  intro l
  induction l with
  | nil => intro seen _; simp [dedupKeep]
  | cons y r ih =>
    intro seen hx
    simp only [dedupKeep]
    split
    · exact ih seen hx
    · rename_i hcon
      intro hmem
      rcases List.mem_cons.mp hmem with rfl | hmem2
      · exact hcon (by simpa using hx)
      · exact ih (y :: seen) (List.mem_cons_of_mem y hx) hmem2

theorem dedupKeep_nodup : ∀ (l seen : List String), (dedupKeep seen l).Nodup := by
  intro l
  induction l with
  | nil => intro seen; simp [dedupKeep]
  | cons y r ih =>
    intro seen
    simp only [dedupKeep]
    split
    · exact ih seen
    · exact List.nodup_cons.mpr
        ⟨dedupKeep_not_mem y r (y :: seen) (List.mem_cons_self y seen), ih (y :: seen)⟩

theorem dedupKeep_mem (x : String) :
    ∀ (l seen : List String), x ∈ dedupKeep seen l ↔ (x ∈ l ∧ x ∉ seen) := by
  intro l
  induction l with
  | nil => intro seen; simp [dedupKeep]
  | cons y r ih =>
    intro seen
    simp only [dedupKeep]
    split
    · rename_i hcon
      rw [ih seen]
      constructor
      · rintro ⟨h1, h2⟩
        exact ⟨List.mem_cons_of_mem y h1, h2⟩
      · rintro ⟨h1, h2⟩
        rcases List.mem_cons.mp h1 with rfl | h3
        · exact absurd (by simpa using hcon) h2
        · exact ⟨h3, h2⟩
    · rename_i hcon
      have hyseen : y ∉ seen := fun hc => hcon (by simpa using hc)
      constructor
      · intro hmem
        rcases List.mem_cons.mp hmem with rfl | h1
        · exact ⟨List.mem_cons_self _ _, hyseen⟩
        · have h2 := (ih (y :: seen)).mp h1
          exact ⟨List.mem_cons_of_mem y h2.1,
            fun hc => h2.2 (List.mem_cons_of_mem y hc)⟩
      · rintro ⟨h1, h2⟩
        by_cases hxy : x = y
        · exact List.mem_cons.mpr (Or.inl hxy)
        · rcases List.mem_cons.mp h1 with hc | h1r
          · exact absurd hc hxy
          · refine List.mem_cons.mpr (Or.inr ((ih (y :: seen)).mpr ⟨h1r, ?_⟩))
            intro hc
            rcases List.mem_cons.mp hc with hc2 | hc2
            · exact hxy hc2
            · exact h2 hc2

theorem dedupKeep_eq_self : ∀ (l seen : List String), l.Nodup →
    (∀ x ∈ l, x ∉ seen) → dedupKeep seen l = l := by
  intro l
  induction l with
  | nil => intro seen _ _; rfl
  | cons y r ih =>
    intro seen hnd hdis
    simp only [dedupKeep]
    by_cases hcon : seen.contains y
    · exact absurd (show y ∈ seen by simpa using hcon)
        (hdis y (List.mem_cons_self y r))
    · rw [if_neg hcon, ih (y :: seen) (List.Nodup.of_cons hnd) ?hr]
      case hr =>
        intro x hx hc
        rcases List.mem_cons.mp hc with rfl | hc2
        · exact (List.nodup_cons.mp hnd).1 hx
        · exact hdis x (List.mem_cons_of_mem y hx) hc2

/-- Moving a fresh name into the exclusion set splits the kept length by
the occurrences of that name. -/
theorem filter_notmem_append (a : String) :
    ∀ (l s : List String), a ∉ s →
      (l.filter (fun d => !s.contains d)).length =
        (l.filter (fun d => !((s ++ [a]).contains d))).length + List.count a l := by
  intro l
  induction l with
  | nil => intro s _; simp
  | cons x r ih =>
    intro s ha
    simp only [List.filter_cons]
    by_cases hxa : x = a
    · subst hxa
      have h1 : (!s.contains x) = true := by simpa using ha
      have h2 : (!((s ++ [x]).contains x)) = false := by simp
      have h4 : List.count x (x :: r) = List.count x r + 1 := by
        rw [List.count_cons]
        simp
      rw [h4, h1, h2]
      simp only [if_true, Bool.false_eq_true, if_false, List.length_cons]
      rw [ih s ha]
      omega
    · have h3 : ((s ++ [a]).contains x) = (s.contains x) := by
        by_cases hxs : x ∈ s <;> simp [hxs, hxa]
      have h4 : List.count a (x :: r) = List.count a r := by
        rw [List.count_cons]
        have hb : (x == a) = false := by simpa using hxa
        simp [hb]
      rw [h4, h3]
      by_cases hxs : (!(s.contains x)) = true
      · rw [if_pos hxs, if_pos hxs]
        simp only [List.length_cons]
        rw [ih s ha]
        omega
      · rw [if_neg hxs, if_neg hxs]
        exact ih s ha

/-- Members of the internal dependency list are package names. -/
theorem depsF_mem_names (names : List String) (dm : List (String × List String))
    (b d : String) (h : d ∈ depsF names dm b) : d ∈ names := by
  simp only [depsF] at h
  split at h
  · have := List.of_mem_filter h
    simpa using this
  · exact absurd h (List.not_mem_nil d)

/-- depsF of a name outside the package set is empty. -/
theorem depsF_not_names (names : List String) (dm : List (String × List String))
    (b : String) (h : b ∉ names) : depsF names dm b = [] := by
  simp only [depsF]
  rw [if_neg (fun hc => h (by simpa using hc))]

/-- Appending one name whose dependencies are already present preserves
the dependency-before-dependent ordering. -/
theorem depsBefore_append_one (names : List String) (dm : List (String × List String))
    (sorted : List String) (a : String)
    (hs : depsBeforeNames names dm sorted)
    (ha : ∀ d ∈ depsF names dm a, d ∈ sorted) :
    depsBeforeNames names dm (sorted ++ [a]) := by
  intro s1 b s2 heq d hd
  rcases List.eq_nil_or_concat s2 with rfl | ⟨s2', y, rfl⟩
  · have h2 : sorted ++ [a] = s1 ++ [b] := heq
    have h3 := List.append_inj' h2 rfl
    obtain ⟨h4, h5⟩ := h3
    have hba : a = b := by simpa using h5
    rw [← h4]
    exact ha d (by rw [hba]; exact hd)
  · have h2 : sorted ++ [a] = (s1 ++ b :: s2') ++ [y] := by
      rw [heq, List.concat_eq_append]
      simp [List.append_assoc]
    have h3 := List.append_inj' h2 rfl
    exact hs s1 b s2' h3.1 d hd

/-- One-step equations for processPending. -/
theorem processPending_skip (b : String) (rest : List String)
    (I : List (String × Int)) (queue : List String) (hg : getA I b = none) :
    processPending (b :: rest) I queue = processPending rest I queue := by
  simp [processPending, hg]

theorem processPending_hit (b : String) (rest : List String)
    (I : List (String × Int)) (queue : List String) (d : Int)
    (hg : getA I b = some d) (hz : d - 1 = 0) :
    processPending (b :: rest) I queue =
      processPending rest (setA I b (d - 1)) (queue ++ [b]) := by
  simp [processPending, hg, hz]

theorem processPending_dec (b : String) (rest : List String)
    (I : List (String × Int)) (queue : List String) (d : Int)
    (hg : getA I b = some d) (hz : ¬(d - 1 = 0)) :
    processPending (b :: rest) I queue =
      processPending rest (setA I b (d - 1)) queue := by
  simp [processPending, hg, hz]

/-- Replacing one stored in-degree changes the positive count by the two
entries' contributions. -/
theorem posCount_setA (I : List (String × Int)) (b : String) (d : Int)
    (hg : getA I b = some d) (v : Int) :
    posCount (setA I b v) + (if 0 < d then 1 else 0) =
      posCount I + (if 0 < v then 1 else 0) := by
  obtain ⟨l1, l2, hm, _, hset⟩ := getA_decomp I b d hg
  rw [hset v, hm]
  simp only [posCount, List.countP_append, List.countP_cons]
  by_cases h1 : 0 < d <;> by_cases h2 : 0 < v <;> simp [h1, h2] <;> omega

/-- processPending preserves the count of positive in-degrees plus the
queue length (the loop measure less the popped head). -/
theorem processPending_measure :
    ∀ (pending : List String) (I : List (String × Int)) (queue : List String),
      posCount (processPending pending I queue).1 +
          (processPending pending I queue).2.length =
        posCount I + queue.length := by
  intro pending
  induction pending with
  | nil => intro I queue; rfl
  | cons b rest ih =>
    intro I queue
    cases hg : getA I b with
    | none => rw [processPending_skip b rest I queue hg, ih]
    | some d =>
      have hpos := posCount_setA I b d hg (d - 1)
      by_cases hz : d - 1 = 0
      · rw [processPending_hit b rest I queue d hg hz, ih]
        have hd1 : d = 1 := by omega
        subst hd1
        have h10 : (1 : Int) - 1 = 0 := by decide
        rw [h10] at hpos ⊢
        have hif1 : (if (0 : Int) < 1 then 1 else 0) = 1 := by decide
        have hif0 : (if (0 : Int) < 0 then 1 else 0) = 0 := by decide
        rw [hif1, hif0] at hpos
        simp only [List.length_append, List.length_cons, List.length_nil]
        omega
      · rw [processPending_dec b rest I queue d hg hz, ih]
        have : (if 0 < d - 1 then 1 else 0) = (if 0 < d then 1 else 0) := by
          by_cases hd : 0 < d - 1 <;> by_cases hd2 : 0 < d <;>
            simp [hd, hd2] <;> omega
        rw [this] at hpos
        omega

/-- processPending subtracts from each stored degree the number of
occurrences of its key in the pending list. -/
theorem processPending_deg :
    ∀ (pending : List String) (I : List (String × Int)) (queue : List String)
      (n : String) (v : Int), getA I n = some v →
      getA (processPending pending I queue).1 n =
        some (v - (List.count n pending : Int)) := by
  intro pending
  induction pending with
  | nil => intro I queue n v hv; simpa using hv
  | cons b rest ih =>
    intro I queue n v hv
    have hcount_ne : ∀ (hbn : b ≠ n),
        (List.count n (b :: rest) : Int) = (List.count n rest : Int) := by
      intro hbn
      rw [List.count_cons]
      have hb : (b == n) = false := by simpa using hbn
      simp [hb]
    cases hg : getA I b with
    | none =>
      have hbn : b ≠ n := by
        intro hc
        rw [hc, hv] at hg
        exact Option.noConfusion hg
      rw [processPending_skip b rest I queue hg, ih I queue n v hv, hcount_ne hbn]
    | some d =>
      by_cases hbn : b = n
      · subst hbn
        have hdv : d = v := by
          rw [hv] at hg
          exact ((Option.some.injEq _ _).mp hg).symm
        subst hdv
        have hstep : getA (setA I b (d - 1)) b = some (d - 1) := by
          rw [getA_setA, if_pos rfl]
        have hcnt : (List.count b (b :: rest) : Int) = (List.count b rest : Int) + 1 := by
          rw [List.count_cons]
          simp
        by_cases hz : d - 1 = 0
        · rw [processPending_hit b rest I queue d hg hz,
            ih _ _ b (d - 1) hstep, hcnt]
          congr 1
          omega
        · rw [processPending_dec b rest I queue d hg hz,
            ih _ _ b (d - 1) hstep, hcnt]
          congr 1
          omega
      · have hstep : getA (setA I b (d - 1)) n = some v := by
          rw [getA_setA, if_neg hbn]
          exact hv
        by_cases hz : d - 1 = 0
        · rw [processPending_hit b rest I queue d hg hz,
            ih _ _ n v hstep, hcount_ne hbn]
        · rw [processPending_dec b rest I queue d hg hz,
            ih _ _ n v hstep, hcount_ne hbn]

/-- The full loop invariant carried through one popped name s pending
dependents: stored degrees stay the unsorted-dependency counts plus the
remaining pending occurrences, enqueued names are exactly those whose
degree reaches zero, and the sorted-plus-queue list stays duplicate-free
inside the package set. -/
theorem processPending_inv (names : List String) (dm : List (String × List String))
    (sorted : List String) :
    ∀ (pending : List String) (I : List (String × Int)) (queue : List String),
      (∀ b ∈ pending, b ∈ names) →
      (∀ n ∈ names, getA I n = some
        ((((depsF names dm n).filter (fun d => !sorted.contains d)).length +
          List.count n pending : Nat) : Int)) →
      (∀ n ∈ queue, ((depsF names dm n).filter (fun d => !sorted.contains d)) = [] ∧
        List.count n pending = 0) →
      (∀ n ∈ sorted, List.count n pending = 0) →
      (∀ n ∈ names, n ∉ sorted → n ∉ queue →
        ¬(((depsF names dm n).filter (fun d => !sorted.contains d)).length +
          List.count n pending = 0)) →
      List.Nodup (sorted ++ queue) →
      (∀ x ∈ queue, x ∈ names) →
      (∀ n ∈ names, getA (processPending pending I queue).1 n = some
        ((((depsF names dm n).filter (fun d => !sorted.contains d)).length : Nat) : Int)) ∧
      (∀ n ∈ (processPending pending I queue).2,
        ((depsF names dm n).filter (fun d => !sorted.contains d)) = []) ∧
      (∀ n ∈ names, n ∉ sorted → n ∉ (processPending pending I queue).2 →
        ¬(((depsF names dm n).filter (fun d => !sorted.contains d)).length = 0)) ∧
      List.Nodup (sorted ++ (processPending pending I queue).2) ∧
      (∀ x ∈ (processPending pending I queue).2, x ∈ names) := by
  intro pending
  induction pending with
  | nil =>
    intro I queue hpn hdeg hq hs hz hnd hqn
    refine ⟨?_, ?_, ?_, hnd, hqn⟩
    · intro n hn
      have h := hdeg n hn
      simpa using h
    · intro n hn
      exact (hq n hn).1
    · intro n hn hns hnq
      have h := hz n hn hns hnq
      simpa using h
  | cons b rest ih =>
    intro I queue hpn hdeg hq hs hz hnd hqn
    have hbnames : b ∈ names := hpn b (List.mem_cons_self b rest)
    have hcb : List.count b (b :: rest) = List.count b rest + 1 := by
      rw [List.count_cons]
      simp
    have hcc : ∀ n, b ≠ n → List.count n (b :: rest) = List.count n rest := by
      intro n hbn
      rw [List.count_cons]
      have hbeq : (b == n) = false := by simpa using hbn
      simp [hbeq]
    have hle : ∀ n, List.count n rest ≤ List.count n (b :: rest) := by
      intro n
      rw [List.count_cons]
      omega
    have hgb := hdeg b hbnames
    rw [hcb] at hgb
    have hbs : b ∉ sorted := by
      intro hc
      have h0 := hs b hc
      omega
    have hbq : b ∉ queue := by
      intro hc
      have h0 := (hq b hc).2
      omega
    have hdm1 : ((((depsF names dm b).filter (fun d => !sorted.contains d)).length +
        (List.count b rest + 1) : Nat) : Int) - 1 =
        ((((depsF names dm b).filter (fun d => !sorted.contains d)).length +
          List.count b rest : Nat) : Int) := by
      omega
    have hdeg' : ∀ n ∈ names,
        getA (setA I b
            (((((depsF names dm b).filter (fun d => !sorted.contains d)).length +
              (List.count b rest + 1) : Nat) : Int) - 1)) n = some
          ((((depsF names dm n).filter (fun d => !sorted.contains d)).length +
            List.count n rest : Nat) : Int) := by
      intro n hn
      by_cases hnb : b = n
      · subst hnb
        rw [getA_setA, if_pos rfl, hdm1]
      · rw [getA_setA, if_neg hnb]
        have h := hdeg n hn
        rw [hcc n hnb] at h
        exact h
    have hrestn : ∀ x ∈ rest, x ∈ names :=
      fun x hx => hpn x (List.mem_cons_of_mem b hx)
    have hs' : ∀ n ∈ sorted, List.count n rest = 0 := by
      intro n hn
      have h0 := hs n hn
      have h1 := hle n
      omega
    by_cases hz0 : (((depsF names dm b).filter (fun d => !sorted.contains d)).length +
        List.count b rest = 0)
    · -- the degree reaches zero: b is enqueued
      have hzd : ((((depsF names dm b).filter (fun d => !sorted.contains d)).length +
          (List.count b rest + 1) : Nat) : Int) - 1 = 0 := by
        omega
      rw [processPending_hit b rest I queue _ hgb hzd]
      apply ih
      · exact hrestn
      · exact hdeg'
      · intro n hn
        rcases List.mem_append.mp hn with hn2 | hn2
        · refine ⟨(hq n hn2).1, ?_⟩
          have h0 := (hq n hn2).2
          have h1 := hle n
          omega
        · have hnb : n = b := by simpa using hn2
          subst hnb
          constructor
          · rw [← List.length_eq_zero]
            omega
          · omega
      · exact hs'
      · intro n hn hns hnq
        have hnq2 : n ∉ queue := fun hc => hnq (List.mem_append.mpr (Or.inl hc))
        have hnb : n ≠ b := by
          intro hc
          exact hnq (List.mem_append.mpr (Or.inr (by simp [hc])))
        have h0 := hz n hn hns hnq2
        rw [hcc n (fun hc => hnb hc.symm)] at h0
        exact h0
      · have hbsq : b ∉ sorted ++ queue := by
          intro hc
          rcases List.mem_append.mp hc with hc2 | hc2
          · exact hbs hc2
          · exact hbq hc2
        have hperm : (sorted ++ (queue ++ [b])).Perm (b :: (sorted ++ queue)) := by
          rw [← List.append_assoc]
          exact List.perm_append_comm.trans (by simp)
        exact hperm.nodup_iff.mpr (List.nodup_cons.mpr ⟨hbsq, hnd⟩)
      · intro x hx
        rcases List.mem_append.mp hx with hx2 | hx2
        · exact hqn x hx2
        · have hxb : x = b := by simpa using hx2
          subst hxb
          exact hbnames
    · -- the degree stays positive: b is not enqueued
      have hzd : ¬(((((depsF names dm b).filter (fun d => !sorted.contains d)).length +
          (List.count b rest + 1) : Nat) : Int) - 1 = 0) := by
        omega
      rw [processPending_dec b rest I queue _ hgb hzd]
      apply ih
      · exact hrestn
      · exact hdeg'
      · intro n hn
        refine ⟨(hq n hn).1, ?_⟩
        have h0 := (hq n hn).2
        have h1 := hle n
        omega
      · exact hs'
      · intro n hn hns hnq
        by_cases hnb : n = b
        · subst hnb
          intro hc
          exact hz0 hc
        · have h0 := hz n hn hns hnq
          rw [hcc n (fun hc => hnb hc.symm)] at h0
          exact h0
      · exact hnd
      · exact hqn

theorem kahnLoopF_nil (D : List (String × List String)) (fuel : Nat)
    (I : List (String × Int)) (sorted : List String) :
    kahnLoopF D fuel I [] sorted = sorted := by
  cases fuel <;> rfl

theorem kahnLoopF_cons (D : List (String × List String)) (fuel : Nat)
    (I : List (String × Int)) (a : String) (q sorted : List String) :
    kahnLoopF D (fuel + 1) I (a :: q) sorted =
      kahnLoopF D fuel (processPending ((getA D a).getD []) I q).1
        (processPending ((getA D a).getD []) I q).2 (sorted ++ [a]) := rfl

/-- A name the finished loop never sorted keeps an unsorted internal
dependency. -/
theorem kahn_unresolved (names : List String) (dm : List (String × List String))
    (sorted : List String)
    (hz : ∀ n ∈ names, n ∉ sorted →
      ¬((depsF names dm n).filter (fun d => !sorted.contains d)).length = 0) :
    ∀ n ∈ names, n ∉ sorted → ∃ d, d ∈ depsF names dm n ∧ d ∉ sorted := by
  intro n hn hns
  have h0 := hz n hn hns
  have hne : (depsF names dm n).filter (fun d => !sorted.contains d) ≠ [] := by
    intro hc
    exact h0 (by rw [hc]; rfl)
  obtain ⟨x, hx⟩ := List.exists_mem_of_ne_nil _ hne
  have hx2 := List.mem_filter.mp hx
  refine ⟨x, hx2.1, ?_⟩
  have h3 := hx2.2
  simpa using h3

/-- The Kahn loop run at its measure: the output is duplicate-free
inside the package set, respects dependency-before-dependent order, and
leaves only names that still have an unsorted dependency. -/
theorem kahnLoopF_main (names : List String) (dm : List (String × List String))
    (D : List (String × List String))
    (hD : ∀ a n, List.count n ((getA D a).getD []) =
      List.count a (depsF names dm n)) :
    ∀ (fuel : Nat) (I : List (String × Int)) (queue sorted : List String),
      fuel = posCount I + queue.length →
      (∀ n ∈ names, getA I n = some
        ((((depsF names dm n).filter (fun d => !sorted.contains d)).length : Nat) : Int)) →
      (∀ n ∈ queue, (depsF names dm n).filter (fun d => !sorted.contains d) = []) →
      (∀ n ∈ names, n ∉ sorted → n ∉ queue →
        ¬((depsF names dm n).filter (fun d => !sorted.contains d)).length = 0) →
      List.Nodup (sorted ++ queue) →
      (∀ x ∈ sorted ++ queue, x ∈ names) →
      depsBeforeNames names dm sorted →
      List.Nodup (kahnLoopF D fuel I queue sorted) ∧
      (∀ x ∈ kahnLoopF D fuel I queue sorted, x ∈ names) ∧
      depsBeforeNames names dm (kahnLoopF D fuel I queue sorted) ∧
      (∀ n ∈ names, n ∉ kahnLoopF D fuel I queue sorted →
        ∃ d, d ∈ depsF names dm n ∧ d ∉ kahnLoopF D fuel I queue sorted) := by
  intro fuel
  induction fuel with
  | zero =>
    intro I queue sorted hfuel hdeg hq hz hnd hsub hord
    have hq0 : queue = [] := by
      have hlen : queue.length = 0 := by omega
      exact List.length_eq_zero.mp hlen
    subst hq0
    rw [kahnLoopF_nil]
    refine ⟨by simpa using hnd, fun x hx => hsub x (by simpa using hx), hord, ?_⟩
    exact kahn_unresolved names dm sorted
      (fun n hn hns => hz n hn hns (List.not_mem_nil n))
  | succ fuel ih =>
    intro I queue sorted hfuel hdeg hq hz hnd hsub hord
    cases queue with
    | nil =>
      rw [kahnLoopF_nil]
      refine ⟨by simpa using hnd, fun x hx => hsub x (by simpa using hx), hord, ?_⟩
      exact kahn_unresolved names dm sorted
        (fun n hn hns => hz n hn hns (List.not_mem_nil n))
    | cons a q =>
      rw [kahnLoopF_cons]
      have hanames : a ∈ names := hsub a (by simp)
      have hasorted : a ∉ sorted := by
        intro hc
        rcases List.nodup_append.mp hnd with ⟨_, _, hdisj⟩
        exact hdisj hc (by simp)
      have haq := hq a (by simp)
      have hadeps : ∀ d ∈ depsF names dm a, d ∈ sorted := by
        intro d hd
        have h1 := List.filter_eq_nil_iff.mp haq d hd
        simpa using h1
      have hpend_names : ∀ b ∈ (getA D a).getD [], b ∈ names := by
        intro b hb
        by_contra hbn
        have hc := List.count_pos_iff.mpr hb
        rw [hD a b, depsF_not_names names dm b hbn] at hc
        simp at hc
      have hshift : ∀ n, ((depsF names dm n).filter (fun d => !sorted.contains d)).length =
          ((depsF names dm n).filter (fun d => !((sorted ++ [a]).contains d))).length +
            List.count a (depsF names dm n) :=
        fun n => filter_notmem_append a (depsF names dm n) sorted hasorted
      have hdeg2 : ∀ n ∈ names, getA I n = some
          ((((depsF names dm n).filter (fun d => !((sorted ++ [a]).contains d))).length +
            List.count n ((getA D a).getD []) : Nat) : Int) := by
        intro n hn
        have h := hdeg n hn
        rw [hshift n] at h
        rw [hD a n]
        exact h
      have hq2 : ∀ n ∈ q,
          ((depsF names dm n).filter (fun d => !((sorted ++ [a]).contains d))) = [] ∧
          List.count n ((getA D a).getD []) = 0 := by
        intro n hn
        have hdold := List.filter_eq_nil_iff.mp (hq n (List.mem_cons_of_mem a hn))
        constructor
        · rw [List.filter_eq_nil_iff]
          intro d hd
          have h2 := hdold d hd
          simp at h2 ⊢
          intro hds
          exact absurd h2 hds
        · rw [hD a n]
          rw [List.count_eq_zero]
          intro hc
          have h2 := hdold a hc
          simp at h2
          exact hasorted h2
      have hs2 : ∀ n ∈ sorted ++ [a], List.count n ((getA D a).getD []) = 0 := by
        intro n hn
        rw [hD a n, List.count_eq_zero]
        intro hc
        rcases List.mem_append.mp hn with hn2 | hn2
        · obtain ⟨s, t, hst⟩ := List.append_of_mem hn2
          have h3 := hord s n t hst a hc
          exact hasorted (by rw [hst]; exact List.mem_append.mpr (Or.inl h3))
        · have hna : n = a := by simpa using hn2
          subst hna
          exact hasorted (hadeps _ hc)
      have hz2 : ∀ n ∈ names, n ∉ sorted ++ [a] → n ∉ q →
          ¬(((depsF names dm n).filter (fun d => !((sorted ++ [a]).contains d))).length +
            List.count n ((getA D a).getD []) = 0) := by
        intro n hn hns hnq
        have hns2 : n ∉ sorted := fun hc => hns (List.mem_append.mpr (Or.inl hc))
        have hna : n ≠ a := fun hc => hns (List.mem_append.mpr (Or.inr (by simp [hc])))
        have hnaq : n ∉ a :: q := by
          intro hc
          rcases List.mem_cons.mp hc with hc2 | hc2
          · exact hna hc2
          · exact hnq hc2
        have h0 := hz n hn hns2 hnaq
        rw [hshift n] at h0
        rw [hD a n]
        exact h0
      have hnd2 : List.Nodup ((sorted ++ [a]) ++ q) := by
        have heq : sorted ++ a :: q = (sorted ++ [a]) ++ q := by simp
        rw [← heq]
        exact hnd
      have hqn2 : ∀ x ∈ q, x ∈ names := by
        intro x hx
        exact hsub x (List.mem_append.mpr (Or.inr (List.mem_cons_of_mem a hx)))
      obtain ⟨hideg, hiq, hiz, hind, hiqn⟩ :=
        processPending_inv names dm (sorted ++ [a]) ((getA D a).getD []) I q
          hpend_names hdeg2 hq2 hs2 hz2 hnd2 hqn2
      apply ih
      · have hm := processPending_measure ((getA D a).getD []) I q
        simp only [List.length_cons] at hfuel
        omega
      · exact hideg
      · exact hiq
      · exact hiz
      · exact hind
      · intro x hx
        rcases List.mem_append.mp hx with hx2 | hx2
        · rcases List.mem_append.mp hx2 with hx3 | hx3
          · exact hsub x (List.mem_append.mpr (Or.inl hx3))
          · have hxa : x = a := by simpa using hx3
            subst hxa
            exact hanames
        · exact hiqn x hx2
      · exact depsBefore_append_one names dm sorted a hord hadeps

theorem getA_none_of_not_mem {α : Type} :
    ∀ (m : List (String × α)) (b : String), b ∉ m.map Prod.fst → getA m b = none := by
  intro m
  induction m with
  | nil => intro b _; rfl
  | cons q rest ih =>
    intro b hb
    simp only [List.map_cons, List.mem_cons] at hb
    push_neg at hb
    simp only [getA]
    rw [if_neg (fun hc => hb.1 hc.symm), ih b hb.2]

/-- Pushing one dependent across an internal dependency list adds it to
each entry by its occurrence count. -/
theorem depsPush_count (k : String) :
    ∀ (ds : List String) (deps : List (String × List String)) (d n : String),
      List.count n ((getA (ds.foldl
          (fun m x => setA m x ((getA m x).getD [] ++ [k])) deps) d).getD []) =
        List.count n ((getA deps d).getD []) +
          (if n = k then List.count d ds else 0) := by
  intro ds
  induction ds with
  | nil => intro deps d n; simp
  | cons d0 rest ih =>
    intro deps d n
    simp only [List.foldl_cons]
    rw [ih (setA deps d0 ((getA deps d0).getD [] ++ [k])) d n]
    by_cases hd0 : d0 = d
    · subst hd0
      rw [getA_setA, if_pos rfl]
      simp only [Option.getD_some]
      rw [List.count_append]
      have hcd : List.count d0 (d0 :: rest) = List.count d0 rest + 1 := by
        rw [List.count_cons]
        simp
      rw [hcd]
      have hck : List.count n [k] = if n = k then 1 else 0 := by
        by_cases hnk : n = k
        · subst hnk
          simp
        · have hb : (k == n) = false := by
            simp only [beq_eq_false_iff_ne, ne_eq]
            exact fun hc => hnk hc.symm
          simp [List.count_cons, hb, hnk]
      rw [hck]
      by_cases hnk : n = k
      · simp only [hnk, if_true]
        omega
      · simp only [hnk, if_false]
    · rw [getA_setA, if_neg hd0]
      have hcd : List.count d (d0 :: rest) = List.count d rest := by
        rw [List.count_cons]
        have hb : (d0 == d) = false := by simpa using hd0
        simp [hb]
      rw [hcd]

/-- An entry missing from the dependency map leaves its seeded in-degree
untouched. -/
theorem buildMaps_inDeg_none (names : List String) :
    ∀ (dm : List (String × List String)) (inDeg : List (String × Int))
      (deps : List (String × List String)) (n : String),
      getA dm n = none →
      getA (buildMaps names dm inDeg deps).1 n = getA inDeg n := by
  intro dm
  induction dm with
  | nil => intro inDeg deps n _; rfl
  | cons e rest ih =>
    intro inDeg deps n hg
    obtain ⟨k, ds⟩ := e
    simp only [getA] at hg
    by_cases hkn : k = n
    · rw [if_pos hkn] at hg
      exact Option.noConfusion hg
    · rw [if_neg hkn] at hg
      simp only [buildMaps]
      by_cases hk : names.contains k
      · rw [if_pos hk, ih _ _ n hg, getA_setA, if_neg hkn]
      · rw [if_neg hk, ih _ _ n hg]

/-- The built in-degree of an internal package with a dependency-map
entry is the number of its internal dependencies. -/
theorem buildMaps_inDeg_some (names : List String) :
    ∀ (dm : List (String × List String)) (inDeg : List (String × Int))
      (deps : List (String × List String)) (n : String) (ds : List String),
      (dm.map Prod.fst).Nodup → names.contains n = true → getA dm n = some ds →
      getA (buildMaps names dm inDeg deps).1 n =
        some ((ds.filter (fun d => names.contains d)).length : Int) := by
  intro dm
  induction dm with
  | nil => intro inDeg deps n ds _ _ hg; exact Option.noConfusion hg
  | cons e rest ih =>
    intro inDeg deps n ds hnd hn hg
    obtain ⟨k, ds0⟩ := e
    simp only [getA] at hg
    by_cases hkn : k = n
    · rw [if_pos hkn] at hg
      have hds : ds0 = ds := (Option.some.injEq _ _).mp hg
      subst hds
      subst hkn
      have hkeys : k ∉ rest.map Prod.fst := by
        have h2 := hnd
        simp only [List.map_cons, List.nodup_cons] at h2
        exact h2.1
      simp only [buildMaps]
      rw [if_pos hn,
        buildMaps_inDeg_none names rest _ _ k (getA_none_of_not_mem rest k hkeys),
        getA_setA, if_pos rfl]
    · rw [if_neg hkn] at hg
      simp only [buildMaps]
      have hnd2 : (rest.map Prod.fst).Nodup := List.Nodup.of_cons (by simpa using hnd)
      by_cases hk : names.contains k
      · rw [if_pos hk, ih _ _ n ds hnd2 hn hg]
      · rw [if_neg hk, ih _ _ n ds hnd2 hn hg]

/-- The built dependents lists hold each dependent with the multiplicity
of the corresponding internal dependency. -/
theorem buildMaps_deps_count (names : List String) :
    ∀ (dm : List (String × List String)) (inDeg : List (String × Int))
      (deps : List (String × List String)) (d n : String),
      (dm.map Prod.fst).Nodup →
      List.count n ((getA (buildMaps names dm inDeg deps).2 d).getD []) =
        List.count n ((getA deps d).getD []) +
          (if names.contains n = true then
            List.count d (((getA dm n).getD []).filter (fun x => names.contains x))
          else 0) := by
  intro dm
  induction dm with
  | nil =>
    intro inDeg deps d n _
    simp [buildMaps, getA]
  | cons e rest ih =>
    intro inDeg deps d n hnd
    obtain ⟨k, ds⟩ := e
    have hnd2 : (rest.map Prod.fst).Nodup := List.Nodup.of_cons (by simpa using hnd)
    simp only [buildMaps]
    by_cases hk : names.contains k
    · rw [if_pos hk, ih _ _ d n hnd2, depsPush_count k (ds.filter (fun x => names.contains x)) deps d n]
      by_cases hkn : k = n
      · subst hkn
        have hkeys : k ∉ rest.map Prod.fst := by
          have h2 := hnd
          simp only [List.map_cons, List.nodup_cons] at h2
          exact h2.1
        rw [getA_none_of_not_mem rest k hkeys]
        have hgk : getA ((k, ds) :: rest) k = some ds := by
          simp [getA]
        rw [hgk]
        have hkmem : k ∈ names := by simpa using hk
        simp [hkmem]
      · have hgn : getA ((k, ds) :: rest) n = getA rest n := by
          simp only [getA]
          rw [if_neg hkn]
        rw [hgn, if_neg (fun hc => hkn hc.symm)]
        omega
    · rw [if_neg hk, ih _ _ d n hnd2]
      by_cases hkn : k = n
      · subst hkn
        have hcn : names.contains k = false := by
          simpa using hk
        rw [hcn]
        simp
      · have hgn : getA ((k, ds) :: rest) n = getA rest n := by
          simp only [getA]
          rw [if_neg hkn]
        rw [hgn]

theorem buildMaps_keys (names : List String) :
    ∀ (dm : List (String × List String)) (inDeg : List (String × Int))
      (deps : List (String × List String)),
      (∀ k, names.contains k = true → k ∈ inDeg.map Prod.fst) →
      (buildMaps names dm inDeg deps).1.map Prod.fst = inDeg.map Prod.fst := by
  intro dm
  induction dm with
  | nil => intro inDeg deps _; rfl
  | cons e rest ih =>
    intro inDeg deps hkeys
    obtain ⟨k, ds⟩ := e
    simp only [buildMaps]
    by_cases hk : names.contains k
    · rw [if_pos hk]
      have hset : (setA inDeg k
          (((ds.filter (fun d => names.contains d)).length : Nat) : Int)).map Prod.fst =
          inDeg.map Prod.fst := by
        rw [keys_setA, if_pos (hkeys k hk)]
      rw [ih (setA inDeg k _) _ (fun k2 hk2 => by rw [hset]; exact hkeys k2 hk2), hset]
    · rw [if_neg hk, ih _ _ hkeys]

theorem filter_contains_nil (l : List String) :
    l.filter (fun d => !(([] : List String).contains d)) = l := by
  induction l with
  | nil => rfl
  | cons x r ih => simp [List.filter_cons, ih]

/-- Properties of the Kahn loop output produced by topologicalSortCrates:
duplicate-free, inside the package-name set, dependency-before-dependent
ordered, and complete up to names that keep an unsorted dependency. -/
theorem topoSort_names (packages : List WPkg) (dm : List (String × List String))
    (names : List String) (built : List (String × Int) × List (String × List String))
    (queue0 S : List String)
    (hnames : names = dedupKeep [] (packages.map (·.name)))
    (hbuilt : built = buildMaps names dm (names.map (fun n => (n, (0 : Int))))
      (names.map (fun n => (n, ([] : List String)))))
    (hqueue : queue0 = (built.1.filter (fun p => p.2 = 0)).map (·.1))
    (hS : S = kahnLoop built.2 built.1 queue0 [])
    (hdm : (dm.map Prod.fst).Nodup) :
    List.Nodup S ∧ (∀ x ∈ S, x ∈ names) ∧ depsBeforeNames names dm S ∧
      (∀ n ∈ names, n ∉ S → ∃ d, d ∈ depsF names dm n ∧ d ∉ S) := by
  have hnodup_names : names.Nodup := by
    rw [hnames]
    exact dedupKeep_nodup _ []
  have hD : ∀ a n, List.count n ((getA built.2 a).getD []) =
      List.count a (depsF names dm n) := by
    intro a n
    rw [hbuilt, buildMaps_deps_count names dm _ _ a n hdm]
    have h0 : ((getA (names.map (fun n => (n, ([] : List String)))) a).getD []) = [] := by
      rw [getA_mapConst]
      by_cases ha : a ∈ names <;> simp [ha]
    rw [h0]
    simp only [List.count_nil, Nat.zero_add]
    simp only [depsF]
    by_cases hn : names.contains n
    · rw [if_pos hn, if_pos hn]
    · rw [if_neg hn, if_neg hn]
      simp
  have hkeys : built.1.map Prod.fst = names := by
    rw [hbuilt, buildMaps_keys names dm _ _ ?hseed]
    case hseed =>
      intro k hk
      have hkm : k ∈ names := by simpa using hk
      have : Prod.fst (k, (0 : Int)) ∈ (names.map (fun n => (n, (0 : Int)))).map Prod.fst :=
        List.mem_map_of_mem Prod.fst (List.mem_map_of_mem _ hkm)
      simpa using this
    rw [List.map_map]
    have hcomp : (Prod.fst ∘ fun n : String => (n, (0 : Int))) = id := rfl
    rw [hcomp, List.map_id]
  have hdeg0 : ∀ n ∈ names, getA built.1 n = some
      ((((depsF names dm n).filter
        (fun d => !(([] : List String).contains d))).length : Nat) : Int) := by
    intro n hn
    rw [filter_contains_nil]
    have hcn : names.contains n = true := by simpa using hn
    cases hg : getA dm n with
    | some ds =>
      rw [hbuilt, buildMaps_inDeg_some names dm _ _ n ds hdm hcn hg]
      simp only [depsF]
      rw [if_pos hcn, hg]
      rfl
    | none =>
      rw [hbuilt, buildMaps_inDeg_none names dm _ _ n hg, getA_mapConst, if_pos hn]
      simp only [depsF]
      rw [if_pos hcn, hg]
      rfl
  have hqmem : ∀ n ∈ queue0, n ∈ names ∧ getA built.1 n = some 0 := by
    intro n hn
    rw [hqueue] at hn
    obtain ⟨p, hpf, hp1⟩ := List.mem_map.mp hn
    have hpm := List.mem_filter.mp hpf
    have hpnames : p.1 ∈ names := by
      rw [← hkeys]
      exact List.mem_map_of_mem Prod.fst hpm.1
    have hz : p.2 = 0 := by simpa using hpm.2
    have hget : getA built.1 p.1 = some p.2 := by
      apply getA_of_mem_nodup built.1 p
      · rw [hkeys]
        exact hnodup_names
      · exact hpm.1
    rw [← hp1]
    exact ⟨hpnames, by rw [hget, hz]⟩
  have hq0 : ∀ n ∈ queue0, (depsF names dm n).filter
      (fun d => !(([] : List String).contains d)) = [] := by
    intro n hn
    obtain ⟨hn1, hn2⟩ := hqmem n hn
    have h1 := hdeg0 n hn1
    rw [hn2] at h1
    have h2 : (((depsF names dm n).filter
        (fun d => !(([] : List String).contains d))).length : Int) = 0 :=
      ((Option.some.injEq _ _).mp h1).symm
    have h3 : ((depsF names dm n).filter
        (fun d => !(([] : List String).contains d))).length = 0 := by
      exact_mod_cast h2
    exact List.length_eq_zero.mp h3
  have hz0 : ∀ n ∈ names, n ∉ ([] : List String) → n ∉ queue0 →
      ¬((depsF names dm n).filter
        (fun d => !(([] : List String).contains d))).length = 0 := by
    intro n hn _ hnq hlen
    apply hnq
    have h1 := hdeg0 n hn
    rw [hlen] at h1
    have h2 : getA built.1 n = some 0 := by
      rw [h1]
      rfl
    have h3 : (n, (0 : Int)) ∈ built.1 := getA_mem built.1 n 0 h2
    rw [hqueue]
    have h4 : (n, (0 : Int)) ∈ built.1.filter (fun p => p.2 = 0) := by
      rw [List.mem_filter]
      exact ⟨h3, by simp⟩
    have h5 := List.mem_map_of_mem (fun p : String × Int => p.1) h4
    simpa using h5
  have hqnodup : queue0.Nodup := by
    rw [hqueue]
    have hsub : ((built.1.filter (fun p => p.2 = 0)).map Prod.fst).Sublist
        (built.1.map Prod.fst) :=
      List.Sublist.map Prod.fst (List.filter_sublist built.1)
    have hnd2 : ((built.1.filter (fun p => p.2 = 0)).map Prod.fst).Nodup :=
      List.Nodup.sublist hsub (by rw [hkeys]; exact hnodup_names)
    exact hnd2
  have hqsub : ∀ x ∈ queue0, x ∈ names := fun x hx => (hqmem x hx).1
  have hmain := kahnLoopF_main names dm built.2 hD
    (posCount built.1 + queue0.length) built.1 queue0 [] rfl hdeg0 hq0 hz0
    (by simpa using hqnodup) (by simpa using hqsub) ?ord
  case ord =>
    intro s1 b s2 heq
    exact absurd heq (by simp)
  rw [hS]
  exact hmain

theorem lookupPkgLast_mem (packages : List WPkg) (n : String) (p : WPkg)
    (h : lookupPkgLast packages n = some p) : p ∈ packages ∧ p.name = n := by
  constructor
  · exact List.mem_reverse.mp (List.mem_of_find?_eq_some h)
  · have h2 := List.find?_some h
    simpa using h2

theorem lookupPkgLast_self :
    ∀ (packages : List WPkg), (packages.map (·.name)).Nodup →
      ∀ p ∈ packages, lookupPkgLast packages p.name = some p := by
  intro packages
  induction packages with
  | nil => intro _ p hp; exact absurd hp (List.not_mem_nil p)
  | cons q rest ih =>
    intro hnd p hp
    have hnd2 : q.name ∉ rest.map (·.name) ∧ (rest.map (·.name)).Nodup := by
      have h2 := hnd
      simp only [List.map_cons, List.nodup_cons] at h2
      exact h2
    simp only [lookupPkgLast, List.reverse_cons]
    rw [List.find?_append]
    rcases List.mem_cons.mp hp with rfl | hp2
    · have hnone : List.find? (fun x => x.name = p.name) rest.reverse = none := by
        rw [List.find?_eq_none]
        intro x hx
        have hxr : x ∈ rest := List.mem_reverse.mp hx
        have hne : x.name ≠ p.name := by
          intro hc
          exact hnd2.1 (by rw [← hc]; exact List.mem_map_of_mem _ hxr)
        simpa using hne
      rw [hnone]
      simp
    · have ihres := ih hnd2.2 p hp2
      simp only [lookupPkgLast] at ihres
      rw [ihres]
      rfl

theorem filterMap_lookup_map (packages : List WPkg)
    (hnd : (packages.map (·.name)).Nodup) :
    ∀ S : List String, (∀ n ∈ S, n ∈ packages.map (·.name)) →
      (S.filterMap (fun n => lookupPkgLast packages n)).map (·.name) = S := by
  intro S
  induction S with
  | nil => intro _; rfl
  | cons n S' ih =>
    intro hS
    have hn := hS n (List.mem_cons_self n S')
    obtain ⟨p, hp, hpn⟩ := List.mem_map.mp hn
    have hlook : lookupPkgLast packages n = some p := by
      rw [← hpn]
      exact lookupPkgLast_self packages hnd p hp
    simp only [List.filterMap_cons, hlook, List.map_cons]
    rw [ih (fun m hm => hS m (List.mem_cons_of_mem n hm)), hpn]

/-- The sorted prefix plus the unresolved remainder is a permutation of
the package list. -/
theorem sorted_append_filter_perm (packages : List WPkg) (S : List String)
    (hnd : (packages.map (·.name)).Nodup)
    (hS : S.Nodup) (hSsub : ∀ n ∈ S, n ∈ packages.map (·.name)) :
    ((S.filterMap (fun n => lookupPkgLast packages n)) ++
      packages.filter (fun p =>
        !(((S.filterMap (fun n => lookupPkgLast packages n)).map (·.name)).contains
          p.name))).Perm packages := by
  rw [List.perm_iff_count]
  intro p
  rw [List.count_append]
  have hmap := filterMap_lookup_map packages hnd S hSsub
  have hsorted_nodup : (S.filterMap (fun n => lookupPkgLast packages n)).Nodup := by
    apply List.Nodup.of_map (fun q : WPkg => q.name)
    rw [hmap]
    exact hS
  have hpackages_nodup : packages.Nodup := List.Nodup.of_map _ hnd
  have hfilter_nodup : (packages.filter (fun p =>
      !(((S.filterMap (fun n => lookupPkgLast packages n)).map (·.name)).contains
        p.name))).Nodup :=
    List.Nodup.sublist (List.filter_sublist packages) hpackages_nodup
  by_cases hp : p ∈ packages
  · rw [List.count_eq_one_of_mem hpackages_nodup hp]
    by_cases hpS : p.name ∈ S
    · have hpsorted : p ∈ S.filterMap (fun n => lookupPkgLast packages n) := by
        rw [List.mem_filterMap]
        exact ⟨p.name, hpS, lookupPkgLast_self packages hnd p hp⟩
      rw [List.count_eq_one_of_mem hsorted_nodup hpsorted]
      have hpfilter : p ∉ packages.filter (fun p =>
          !(((S.filterMap (fun n => lookupPkgLast packages n)).map (·.name)).contains
            p.name)) := by
        intro hc
        have h2 := (List.mem_filter.mp hc).2
        rw [hmap] at h2
        simp at h2
        exact h2 hpS
      rw [List.count_eq_zero_of_not_mem hpfilter]
    · have hpsorted : p ∉ S.filterMap (fun n => lookupPkgLast packages n) := by
        intro hc
        have h2 : p.name ∈ (S.filterMap
            (fun n => lookupPkgLast packages n)).map (·.name) :=
          List.mem_map_of_mem _ hc
        rw [hmap] at h2
        exact hpS h2
      rw [List.count_eq_zero_of_not_mem hpsorted]
      have hpfilter : p ∈ packages.filter (fun p =>
          !(((S.filterMap (fun n => lookupPkgLast packages n)).map (·.name)).contains
            p.name)) := by
        rw [List.mem_filter]
        refine ⟨hp, ?_⟩
        rw [hmap]
        simpa using hpS
      rw [List.count_eq_one_of_mem hfilter_nodup hpfilter]
  · rw [List.count_eq_zero_of_not_mem hp]
    have h1 : p ∉ S.filterMap (fun n => lookupPkgLast packages n) := by
      intro hc
      obtain ⟨n, _, hlook⟩ := List.mem_filterMap.mp hc
      exact hp (lookupPkgLast_mem packages n p hlook).1
    have h2 : p ∉ packages.filter (fun p =>
        !(((S.filterMap (fun n => lookupPkgLast packages n)).map (·.name)).contains
          p.name)) := by
      intro hc
      exact hp (List.mem_filter.mp hc).1
    rw [List.count_eq_zero_of_not_mem h1, List.count_eq_zero_of_not_mem h2]

/-- How the sort assembles its result, whichever branch is taken. -/
theorem assemble_eq (packages sorted : List WPkg)
    (hlen : ¬(sorted.length < packages.length) →
      packages.filter (fun p => !((sorted.map (·.name)).contains p.name)) = []) :
    (if sorted.length < packages.length then
      sorted ++ packages.filter (fun p => !((sorted.map (·.name)).contains p.name))
     else sorted) =
      sorted ++ packages.filter (fun p => !((sorted.map (·.name)).contains p.name)) := by
  split
  · rfl
  · rename_i h
    rw [hlen h]
    simp

/-- Combined characterization of topologicalSortCrates: a sorted-name
list S with its loop properties, and the output assembled from it in
both the cyclic and the acyclic branch. -/
theorem topoSort_assembled (packages : List WPkg) (dm : List (String × List String))
    (hnd : (packages.map (·.name)).Nodup)
    (hdm : (dm.map Prod.fst).Nodup) :
    ∃ S : List String,
      S.Nodup ∧ (∀ x ∈ S, x ∈ packages.map (·.name)) ∧
      depsBeforeNames (dedupKeep [] (packages.map (·.name))) dm S ∧
      (∀ n ∈ packages.map (·.name), n ∉ S →
        ∃ d, d ∈ depsF (dedupKeep [] (packages.map (·.name))) dm n ∧ d ∉ S) ∧
      ((S.filterMap (fun n => lookupPkgLast packages n)).map (·.name) = S) ∧
      topologicalSortCrates packages dm =
        (S.filterMap (fun n => lookupPkgLast packages n)) ++
          packages.filter (fun p =>
            !(((S.filterMap (fun n => lookupPkgLast packages n)).map (·.name)).contains
              p.name)) ∧
      ((S.filterMap (fun n => lookupPkgLast packages n)) ++
          packages.filter (fun p =>
            !(((S.filterMap (fun n => lookupPkgLast packages n)).map (·.name)).contains
              p.name))).Perm packages := by
  have hnames_eq : dedupKeep [] (packages.map (·.name)) = packages.map (·.name) :=
    dedupKeep_eq_self _ [] hnd (fun x _ => List.not_mem_nil x)
  obtain ⟨hSnd, hSsub, hSord, hScomp⟩ :=
    topoSort_names packages dm _ _ _ _ rfl rfl rfl rfl hdm
  refine ⟨_, hSnd, ?hsub, hSord, ?hcomp, ?hmap, ?hout, ?hperm⟩
  case hsub =>
    intro x hx
    rw [← hnames_eq]
    exact hSsub x hx
  case hcomp =>
    intro n hn hnS
    exact hScomp n (by rw [hnames_eq]; exact hn) hnS
  case hmap =>
    exact filterMap_lookup_map packages hnd _
      (fun x hx => by rw [← hnames_eq]; exact hSsub x hx)
  case hout =>
    simp only [topologicalSortCrates]
    apply assemble_eq
    intro hge
    have hperm2 := sorted_append_filter_perm packages _ hnd hSnd
      (fun x hx => by rw [← hnames_eq]; exact hSsub x hx)
    have hlen := hperm2.length_eq
    rw [List.length_append] at hlen
    apply List.length_eq_zero.mp
    omega
  case hperm =>
    exact sorted_append_filter_perm packages _ hnd hSnd
      (fun x hx => by rw [← hnames_eq]; exact hSsub x hx)

/-- C10: for every package list with pairwise-distinct names and every
dependency map with distinct keys — cycles and foreign names included —
topologicalSortCrates returns a permutation of its input: every package
exactly once, nothing added. -/
theorem C10_topologicalSortCrates_perm (packages : List WPkg)
    (dm : List (String × List String))
    (hnd : (packages.map (·.name)).Nodup)
    (hdm : (dm.map Prod.fst).Nodup) :
    (topologicalSortCrates packages dm).Perm packages := by
  obtain ⟨S, _, _, _, _, _, hout, hperm⟩ := topoSort_assembled packages dm hnd hdm
  rw [hout]
  exact hperm

/-- Witness for C10 at a two-crate cycle: the output is still a
permutation of the input. -/
theorem C10_topologicalSortCrates_perm_witness :
    (topologicalSortCrates
      [⟨"a", "1.0.0", "/w/a", "rust"⟩, ⟨"b", "1.0.0", "/w/b", "rust"⟩]
      [("a", ["b"]), ("b", ["a"])]).Perm
      [⟨"a", "1.0.0", "/w/a", "rust"⟩, ⟨"b", "1.0.0", "/w/b", "rust"⟩] :=
  C10_topologicalSortCrates_perm
    [⟨"a", "1.0.0", "/w/a", "rust"⟩, ⟨"b", "1.0.0", "/w/b", "rust"⟩]
    [("a", ["b"]), ("b", ["a"])] (by decide) (by decide)

/-- C3: when the internal dependency relation is well-founded (the
acyclic case, diamonds included) topologicalSortCrates places every
dependency strictly before each of its dependents across the whole
output; and unconditionally — so in particular for cyclic graphs,
without any error — the output is a dependency-ordered resolved prefix
followed by exactly the unresolved packages in original discovery
order, each unresolved package keeping an unresolved internal
dependency. -/
theorem C3_topologicalSortCrates_order (packages : List WPkg)
    (dm : List (String × List String))
    (hnd : (packages.map (·.name)).Nodup)
    (hdm : (dm.map Prod.fst).Nodup) :
    (WellFounded (edgeRel (dedupKeep [] (packages.map (·.name))) dm) →
      depsBeforePkgs (dedupKeep [] (packages.map (·.name))) dm
        (topologicalSortCrates packages dm)) ∧
    (∃ resolved,
      topologicalSortCrates packages dm =
        resolved ++ packages.filter
          (fun p => !((resolved.map (·.name)).contains p.name)) ∧
      depsBeforePkgs (dedupKeep [] (packages.map (·.name))) dm resolved ∧
      (∀ p ∈ packages, p ∉ resolved →
        ∃ d, d ∈ depsF (dedupKeep [] (packages.map (·.name))) dm p.name ∧
          d ∉ resolved.map (·.name))) := by
  have hnames_eq : dedupKeep [] (packages.map (·.name)) = packages.map (·.name) :=
    dedupKeep_eq_self _ [] hnd (fun x _ => List.not_mem_nil x)
  obtain ⟨S, hSnd, hSsub, hSord, hScomp, hmap, hout, hperm⟩ :=
    topoSort_assembled packages dm hnd hdm
  constructor
  · intro hwf
    have hall : ∀ n ∈ packages.map (·.name), n ∈ S := by
      by_contra hc
      push_neg at hc
      obtain ⟨n0, hn0, hn0S⟩ := hc
      obtain ⟨m, hmem, hmin⟩ := hwf.has_min
        (fun x => x ∈ packages.map (·.name) ∧ x ∉ S) ⟨n0, hn0, hn0S⟩
      obtain ⟨d, hd1, hd2⟩ := hScomp m hmem.1 hmem.2
      have hdnames : d ∈ packages.map (·.name) := by
        rw [← hnames_eq]
        exact depsF_mem_names _ dm m d hd1
      exact hmin d ⟨hdnames, hd2⟩ hd1
    have hfe : packages.filter (fun p =>
        !(((S.filterMap (fun n => lookupPkgLast packages n)).map (·.name)).contains
          p.name)) = [] := by
      rw [List.filter_eq_nil_iff]
      intro p hp
      rw [hmap]
      have hmem := hall p.name (List.mem_map_of_mem _ hp)
      simp [hmem]
    rw [hout, hfe, List.append_nil]
    simp only [depsBeforePkgs]
    rw [hmap]
    exact hSord
  · refine ⟨S.filterMap (fun n => lookupPkgLast packages n), ?_, ?_, ?_⟩
    · rw [hout]
    · simp only [depsBeforePkgs]
      rw [hmap]
      exact hSord
    · intro p hp hpres
      have hpnS : p.name ∉ S := by
        intro hc
        exact hpres (List.mem_filterMap.mpr
          ⟨p.name, hc, lookupPkgLast_self packages hnd p hp⟩)
      obtain ⟨d, hd1, hd2⟩ := hScomp p.name (List.mem_map_of_mem _ hp) hpnS
      refine ⟨d, hd1, ?_⟩
      rw [hmap]
      exact hd2

/-- Witness for C3 at the diamond workspace (app depends on lib-a and
lib-b, both depend on core), by the theorem at that concrete input. -/
theorem C3_topologicalSortCrates_order_witness :
    (WellFounded (edgeRel (dedupKeep []
        (([⟨"app", "1.0.0", "/w/app", "rust"⟩, ⟨"lib-a", "1.0.0", "/w/a", "rust"⟩,
          ⟨"lib-b", "1.0.0", "/w/b", "rust"⟩, ⟨"core", "1.0.0", "/w/core", "rust"⟩] :
            List WPkg).map (·.name)))
        [("app", ["lib-a", "lib-b"]), ("lib-a", ["core"]), ("lib-b", ["core"])]) →
      depsBeforePkgs (dedupKeep []
        (([⟨"app", "1.0.0", "/w/app", "rust"⟩, ⟨"lib-a", "1.0.0", "/w/a", "rust"⟩,
          ⟨"lib-b", "1.0.0", "/w/b", "rust"⟩, ⟨"core", "1.0.0", "/w/core", "rust"⟩] :
            List WPkg).map (·.name)))
        [("app", ["lib-a", "lib-b"]), ("lib-a", ["core"]), ("lib-b", ["core"])]
        (topologicalSortCrates
          [⟨"app", "1.0.0", "/w/app", "rust"⟩, ⟨"lib-a", "1.0.0", "/w/a", "rust"⟩,
            ⟨"lib-b", "1.0.0", "/w/b", "rust"⟩, ⟨"core", "1.0.0", "/w/core", "rust"⟩]
          [("app", ["lib-a", "lib-b"]), ("lib-a", ["core"]), ("lib-b", ["core"])])) ∧
    (∃ resolved,
      topologicalSortCrates
        [⟨"app", "1.0.0", "/w/app", "rust"⟩, ⟨"lib-a", "1.0.0", "/w/a", "rust"⟩,
          ⟨"lib-b", "1.0.0", "/w/b", "rust"⟩, ⟨"core", "1.0.0", "/w/core", "rust"⟩]
        [("app", ["lib-a", "lib-b"]), ("lib-a", ["core"]), ("lib-b", ["core"])] =
        resolved ++ ([⟨"app", "1.0.0", "/w/app", "rust"⟩,
          ⟨"lib-a", "1.0.0", "/w/a", "rust"⟩, ⟨"lib-b", "1.0.0", "/w/b", "rust"⟩,
          ⟨"core", "1.0.0", "/w/core", "rust"⟩] : List WPkg).filter
          (fun p => !((resolved.map (·.name)).contains p.name)) ∧
      depsBeforePkgs (dedupKeep []
        (([⟨"app", "1.0.0", "/w/app", "rust"⟩, ⟨"lib-a", "1.0.0", "/w/a", "rust"⟩,
          ⟨"lib-b", "1.0.0", "/w/b", "rust"⟩, ⟨"core", "1.0.0", "/w/core", "rust"⟩] :
            List WPkg).map (·.name)))
        [("app", ["lib-a", "lib-b"]), ("lib-a", ["core"]), ("lib-b", ["core"])]
        resolved ∧
      (∀ p ∈ ([⟨"app", "1.0.0", "/w/app", "rust"⟩, ⟨"lib-a", "1.0.0", "/w/a", "rust"⟩,
          ⟨"lib-b", "1.0.0", "/w/b", "rust"⟩, ⟨"core", "1.0.0", "/w/core", "rust"⟩] :
            List WPkg), p ∉ resolved →
        ∃ d, d ∈ depsF (dedupKeep []
          (([⟨"app", "1.0.0", "/w/app", "rust"⟩, ⟨"lib-a", "1.0.0", "/w/a", "rust"⟩,
            ⟨"lib-b", "1.0.0", "/w/b", "rust"⟩, ⟨"core", "1.0.0", "/w/core", "rust"⟩] :
              List WPkg).map (·.name)))
          [("app", ["lib-a", "lib-b"]), ("lib-a", ["core"]), ("lib-b", ["core"])]
          p.name ∧ d ∉ resolved.map (·.name))) :=
  C3_topologicalSortCrates_order
    [⟨"app", "1.0.0", "/w/app", "rust"⟩, ⟨"lib-a", "1.0.0", "/w/a", "rust"⟩,
      ⟨"lib-b", "1.0.0", "/w/b", "rust"⟩, ⟨"core", "1.0.0", "/w/core", "rust"⟩]
    [("app", ["lib-a", "lib-b"]), ("lib-a", ["core"]), ("lib-b", ["core"])]
    (by decide) (by decide)

end JustRelease
